import Mathlib

/-
Verification development for the Barnes-Hut octree of demmel/elementary
(src/src/barnes_hut.rs).

Embedding conventions:
* `f32` scalars are modelled exactly: tree-side arithmetic (insertion,
  octant selection, aggregation) uses `ℚ`, and the force-law side, which
  needs square roots, uses `ℝ`.  Overflow and rounding are not modelled;
  the claims under study are stated in exact arithmetic ("within
  floating-point tolerance").
* `bevy::math::Vec3` is modelled by the structure `V3` (rational
  components) and, for force results, `V3R` (real components).
* Rust's recursive `Node::insert` has no structural termination measure
  (it can genuinely diverge), so it is embedded with an explicit fuel
  parameter returning `Option Node`; `none` means the recursion did not
  finish within the given fuel.  Divergence of the source program at an
  input is expressed as `none` for every fuel.
* The generic body identifier `TId: Copy + Eq` is instantiated with `ℕ`
  (only copied and compared for equality, exactly like the source).
-/

/-- Model of `bevy::math::Vec3` with exact rational components. -/
@[ext]
structure V3 where
  x : ℚ
  y : ℚ
  z : ℚ
deriving DecidableEq, Repr

instance : Zero V3 := ⟨⟨0, 0, 0⟩⟩
instance : Add V3 := ⟨fun a b => ⟨a.x + b.x, a.y + b.y, a.z + b.z⟩⟩
instance : Sub V3 := ⟨fun a b => ⟨a.x - b.x, a.y - b.y, a.z - b.z⟩⟩
instance : SMul ℚ V3 := ⟨fun t v => ⟨t * v.x, t * v.y, t * v.z⟩⟩
instance : Neg V3 := ⟨fun v => ⟨-v.x, -v.y, -v.z⟩⟩

/-- `Vec3 - f32` in bevy/glam subtracts the scalar from every component. -/
def V3.subS (v : V3) (t : ℚ) : V3 := ⟨v.x - t, v.y - t, v.z - t⟩

/-- `Vec3 / f32` in bevy/glam divides every component by the scalar. -/
def V3.divS (v : V3) (t : ℚ) : V3 := ⟨v.x / t, v.y / t, v.z / t⟩

/-- `Vec3::max_element`: the largest of the three components. -/
def V3.max_element (v : V3) : ℚ := max v.x (max v.y v.z)

/-- Force vectors live over the reals (the force law takes square roots). -/
@[ext]
structure V3R where
  x : ℝ
  y : ℝ
  z : ℝ

instance : Zero V3R := ⟨⟨0, 0, 0⟩⟩
instance : Add V3R := ⟨fun a b => ⟨a.x + b.x, a.y + b.y, a.z + b.z⟩⟩
instance : SMul ℝ V3R := ⟨fun t v => ⟨t * v.x, t * v.y, t * v.z⟩⟩

instance : AddCommMonoid V3R where
  add := (· + ·)
  zero := 0
  add_assoc a b c := by
    have hx : ∀ u v : V3R, (u + v).x = u.x + v.x := fun _ _ => rfl
    have hy : ∀ u v : V3R, (u + v).y = u.y + v.y := fun _ _ => rfl
    have hz : ∀ u v : V3R, (u + v).z = u.z + v.z := fun _ _ => rfl
    ext <;> simp [hx, hy, hz, add_assoc]
  zero_add a := by
    have hx : ∀ u v : V3R, (u + v).x = u.x + v.x := fun _ _ => rfl
    have hy : ∀ u v : V3R, (u + v).y = u.y + v.y := fun _ _ => rfl
    have hz : ∀ u v : V3R, (u + v).z = u.z + v.z := fun _ _ => rfl
    have h0x : (V3R.x 0) = 0 := rfl
    have h0y : (V3R.y 0) = 0 := rfl
    have h0z : (V3R.z 0) = 0 := rfl
    ext <;> simp [hx, hy, hz, h0x, h0y, h0z]
  add_zero a := by
    have hx : ∀ u v : V3R, (u + v).x = u.x + v.x := fun _ _ => rfl
    have hy : ∀ u v : V3R, (u + v).y = u.y + v.y := fun _ _ => rfl
    have hz : ∀ u v : V3R, (u + v).z = u.z + v.z := fun _ _ => rfl
    have h0x : (V3R.x 0) = 0 := rfl
    have h0y : (V3R.y 0) = 0 := rfl
    have h0z : (V3R.z 0) = 0 := rfl
    ext <;> simp [hx, hy, hz, h0x, h0y, h0z]
  add_comm a b := by
    have hx : ∀ u v : V3R, (u + v).x = u.x + v.x := fun _ _ => rfl
    have hy : ∀ u v : V3R, (u + v).y = u.y + v.y := fun _ _ => rfl
    have hz : ∀ u v : V3R, (u + v).z = u.z + v.z := fun _ _ => rfl
    ext <;> simp [hx, hy, hz, add_comm]
  nsmul := nsmulRec

/-- Componentwise cast of a rational vector into the reals. -/
def V3.castR (v : V3) : V3R := ⟨(v.x : ℝ), (v.y : ℝ), (v.z : ℝ)⟩

/--
The node of the octree (struct `Node` + enum `NodeKind` of the source,
flattened into one inductive: the four scalar fields `mass`,
`center_of_mass`, `midpoint`, `size` are carried by every constructor and
the constructor itself is the `NodeKind`: `Empty`, `Leaf(TId)` or
`Node(Box<[Node; 8]>)`, the latter with the eight children as a function
from `Fin 8`).
-/
inductive Node : Type where
  | empty (mass : ℚ) (center_of_mass : V3) (midpoint : V3) (size : ℚ) : Node
  | leaf (mass : ℚ) (center_of_mass : V3) (midpoint : V3) (size : ℚ) (id : ℕ) : Node
  | internal (mass : ℚ) (center_of_mass : V3) (midpoint : V3) (size : ℚ)
      (children : Fin 8 → Node) : Node

def Node.mass : Node → ℚ
  | .empty m _ _ _ => m
  | .leaf m _ _ _ _ => m
  | .internal m _ _ _ _ => m

def Node.center_of_mass : Node → V3
  | .empty _ c _ _ => c
  | .leaf _ c _ _ _ => c
  | .internal _ c _ _ _ => c

def Node.midpoint : Node → V3
  | .empty _ _ p _ => p
  | .leaf _ _ p _ _ => p
  | .internal _ _ p _ _ => p

def Node.size : Node → ℚ
  | .empty _ _ _ s => s
  | .leaf _ _ _ s _ => s
  | .internal _ _ _ s _ => s

/-- `Node::new(midpoint, size)`: mass 0, center of mass `Vec3::ZERO`, kind `Empty`. -/
def Node.new (midpoint : V3) (size : ℚ) : Node := .empty 0 0 midpoint size

/--
`branch_index(position, midpoint)` of the source:
`offset = position - midpoint; onoff = (offset.signum() + 1.0) / 2.0;
 onoff.x as usize + onoff.y as usize * 2 + onoff.z as usize * 4`.
Rust/glam `f32` semantics: `signum` returns `1.0` for every non-negative
value including `+0.0` (and `-1.0` for negative values), so
`(signum + 1) / 2` cast to `usize` is `1` exactly when `0 <= offset` on
that component, and `0` otherwise.  (An exactly tied coordinate gives
offset `x - x = +0.0`, hence contributes the *upper* octant.)
-/
def branch_index (position midpoint : V3) : Fin 8 :=
  ⟨(if 0 ≤ (position - midpoint).x then 1 else 0)
    + (if 0 ≤ (position - midpoint).y then 1 else 0) * 2
    + (if 0 ≤ (position - midpoint).z then 1 else 0) * 4, by
      split_ifs <;> norm_num⟩

/--
The eight-child array allocated when a leaf splits (source lines 67-88):
`sub_size = size / 2`, `min = midpoint - sub_size`,
`min_midpoint = (min + midpoint) / 2`, and child `i` is
`Node::new(min_midpoint + sub_size * vec3(bx, by, bz), sub_size)` where
`bx = i & 1`, `by = (i >> 1) & 1`, `bz = (i >> 2) & 1` (the order of the
literal array in the source).
-/
def mkChildren (midpoint : V3) (size : ℚ) (i : Fin 8) : Node :=
  let sub_size := size / 2
  let min := midpoint.subS sub_size
  let min_midpoint := (min + midpoint).divS 2
  match i with
  | ⟨0, _⟩ => Node.new min_midpoint sub_size
  | ⟨1, _⟩ => Node.new (min_midpoint + sub_size • (⟨1, 0, 0⟩ : V3)) sub_size
  | ⟨2, _⟩ => Node.new (min_midpoint + sub_size • (⟨0, 1, 0⟩ : V3)) sub_size
  | ⟨3, _⟩ => Node.new (min_midpoint + sub_size • (⟨1, 1, 0⟩ : V3)) sub_size
  | ⟨4, _⟩ => Node.new (min_midpoint + sub_size • (⟨0, 0, 1⟩ : V3)) sub_size
  | ⟨5, _⟩ => Node.new (min_midpoint + sub_size • (⟨1, 0, 1⟩ : V3)) sub_size
  | ⟨6, _⟩ => Node.new (min_midpoint + sub_size • (⟨0, 1, 1⟩ : V3)) sub_size
  | ⟨7, _⟩ => Node.new (min_midpoint + sub_size • (⟨1, 1, 1⟩ : V3)) sub_size

/--
The aggregate update performed after every structural insertion step
(source lines 104-106):
`center_of_mass = (center_of_mass * mass + position * m) / (mass + m)`,
using the node's *old* mass and centre.
-/
def comUpd (c : V3) (mass : ℚ) (position : V3) (m : ℚ) : V3 :=
  (mass • c + m • position).divS (mass + m)

/-- Pointwise update of the child array at one index. -/
def updChild (ch : Fin 8 → Node) (i : Fin 8) (c : Node) : Fin 8 → Node :=
  fun j => if j = i then c else ch j

/--
`Node::insert(id, position, mass)` with an explicit fuel bound on the
recursion depth (the source recursion has no such bound and can diverge;
`none` means the recursion did not terminate within `fuel` nested calls).
Each branch mirrors the source: `Empty` becomes `Leaf(id)`; `Leaf` splits,
re-inserting the previous body `(prev_id, center_of_mass, mass)` and then
the new body into the freshly allocated children; `Node` delegates to the
child selected by `branch_index`.  In all three cases the node's own
`center_of_mass`/`mass` are then updated via `comUpd` with the old values.
-/
def Node.insert : ℕ → Node → ℕ → V3 → ℚ → Option Node
  | 0, _, _, _, _ => none
  | _ + 1, .empty mass c mid s, id, position, m =>
      some (.leaf (mass + m) (comUpd c mass position m) mid s id)
  | fuel + 1, .leaf mass c mid s prev_id, id, position, m =>
      match Node.insert fuel (mkChildren mid s (branch_index c mid)) prev_id c mass with
      | none => none
      | some c1 =>
        let ch1 := updChild (mkChildren mid s) (branch_index c mid) c1
        match Node.insert fuel (ch1 (branch_index position mid)) id position m with
        | none => none
        | some c2 =>
          some (.internal (mass + m) (comUpd c mass position m) mid s
            (updChild ch1 (branch_index position mid) c2))
  | fuel + 1, .internal mass c mid s ch, id, position, m =>
      match Node.insert fuel (ch (branch_index position mid)) id position m with
      | none => none
      | some c1 =>
        some (.internal (mass + m) (comUpd c mass position m) mid s
          (updChild ch (branch_index position mid) c1))

/-- The tree: root node plus body count (struct `BarnesHutTree`). -/
structure BarnesHutTree where
  root : Node
  count : ℕ

/--
`BarnesHutTree::new(min_bound, max_bound)`: cubic root centred at
`(max_bound + min_bound) / 2` with edge `(max_bound - min_bound).max_element()`.
-/
def BarnesHutTree.new (min_bound max_bound : V3) : BarnesHutTree :=
  { root := Node.new ((max_bound + min_bound).divS 2) (max_bound - min_bound).max_element
    count := 0 }

/-- `BarnesHutTree::insert`: delegate to the root, increment the count. -/
def BarnesHutTree.insert (fuel : ℕ) (t : BarnesHutTree) (id : ℕ) (position : V3)
    (m : ℚ) : Option BarnesHutTree :=
  (Node.insert fuel t.root id position m).map fun r => ⟨r, t.count + 1⟩

/-- Insert a list of `(id, position, mass)` bodies in order, `fuel` per insertion. -/
def buildTree (fuel : ℕ) (t : BarnesHutTree) : List (ℕ × V3 × ℚ) → Option BarnesHutTree
  | [] => some t
  | b :: rest =>
      match BarnesHutTree.insert fuel t b.1 b.2.1 b.2.2 with
      | none => none
      | some t1 => buildTree fuel t1 rest

/-- `f32::EPSILON` is `2^(-23)`, modelled exactly. -/
noncomputable def eps : ℝ := 1 / 2 ^ 23

/-- `Vec3::length`: the Euclidean norm, over the reals. -/
noncomputable def len (v : V3) : ℝ :=
  Real.sqrt ((v.x : ℝ) ^ 2 + (v.y : ℝ) ^ 2 + (v.z : ℝ) ^ 2)

/--
`Vec3::normalize_or_zero`: `v / |v|`, or the zero vector when `v` is not
normalizable.  In exact arithmetic (no overflow/underflow) the only
non-normalizable input is the zero vector.
-/
noncomputable def normalize_or_zero (v : V3) : V3R :=
  if v = 0 then 0 else (len v)⁻¹ • v.castR

/--
The free function `force(position, body_position, body_mass, force_constant,
distance_exp)` (source lines 167-182): zero for non-positive mass, otherwise
`force_constant * body_mass * d.normalize_or_zero() * (d.length() + EPSILON).powi(e)`
with `d = body_position - position` — componentwise, the scalar
`k * m * (|d| + ε)^e` times the unit vector.
-/
noncomputable def force (position body_position : V3) (body_mass : ℚ)
    (force_constant : ℝ) (distance_exp : ℤ) : V3R :=
  if body_mass ≤ 0 then 0
  else
    (force_constant * (body_mass : ℝ)
        * (len (body_position - position) + eps) ^ distance_exp) •
      normalize_or_zero (body_position - position)

/--
The acceptance test `self.size / d < theta` of the internal-node case,
under IEEE `f32` division semantics: for `d = 0` the quotient is
`+∞` (size positive), `NaN` (size zero) or `-∞` (size negative), so the
comparison with a finite `theta` holds exactly when `size < 0`; for
`d ≠ 0` it is the ordinary real comparison.
-/
def accept (size : ℚ) (d θ : ℝ) : Prop :=
  (d = 0 ∧ (size : ℝ) < 0) ∨ (d ≠ 0 ∧ (size : ℝ) / d < θ)

/-- Alias for the free pairwise-law function `force` (see `Node.force`). -/
noncomputable abbrev pairForce := force

noncomputable instance accept.dec (size : ℚ) (d θ : ℝ) : Decidable (accept size d θ) :=
  Classical.propDecidable _

/--
`Node::force(id, position, force_constant, distance_exp, theta)`
(source lines 109-151): empty nodes contribute nothing; a leaf whose id
differs from the query id contributes one exact pairwise evaluation (its
own aggregate is its single body), a matching leaf contributes zero;
an internal node whose acceptance test passes contributes one pairwise
evaluation against its aggregate, otherwise the eight children are summed.
(`pairForce` is a literal alias for the free function `force`, whose bare
name inside this definition would denote the recursive call.)
-/
noncomputable def Node.force : Node → ℕ → V3 → ℝ → ℤ → ℝ → V3R
  | .empty _ _ _ _, _, _, _, _, _ => 0
  | .leaf mass c _ _ node_id, id, position, k, e, _ =>
      if id ≠ node_id then pairForce position c mass k e else 0
  | .internal mass c _ s ch, id, position, k, e, θ =>
      if accept s (len (c - position)) θ then pairForce position c mass k e
      else
        Node.force (ch 0) id position k e θ + Node.force (ch 1) id position k e θ
          + Node.force (ch 2) id position k e θ + Node.force (ch 3) id position k e θ
          + Node.force (ch 4) id position k e θ + Node.force (ch 5) id position k e θ
          + Node.force (ch 6) id position k e θ + Node.force (ch 7) id position k e θ

/-- `BarnesHutTree::force`: delegate to the root. -/
noncomputable def BarnesHutTree.force (t : BarnesHutTree) (id : ℕ) (position : V3)
    (force_constant : ℝ) (distance_exp : ℤ) (θ : ℝ) : V3R :=
  Node.force t.root id position force_constant distance_exp θ

/--
Modelled from the spec: `point_masses(id, position, theta)` is specified
(spec §4.1, §4.3) but absent from `src/src/barnes_hut.rs` (the file only
exposes `new`/`insert`/`force`; the unused `count` field is described as
the result-buffer size hint for this query).  Per the spec it is the same
traversal as `Node::force` with the accept action "append
`(center_of_mass, mass)`" instead of evaluating the pairwise law.
-/
noncomputable def Node.point_masses : Node → ℕ → V3 → ℝ → List (V3 × ℚ)
  | .empty _ _ _ _, _, _, _ => []
  | .leaf mass c _ _ node_id, id, _, _ =>
      if id ≠ node_id then [(c, mass)] else []
  | .internal mass c _ s ch, id, position, θ =>
      if accept s (len (c - position)) θ then [(c, mass)]
      else
        Node.point_masses (ch 0) id position θ ++ Node.point_masses (ch 1) id position θ
          ++ Node.point_masses (ch 2) id position θ ++ Node.point_masses (ch 3) id position θ
          ++ Node.point_masses (ch 4) id position θ ++ Node.point_masses (ch 5) id position θ
          ++ Node.point_masses (ch 6) id position θ ++ Node.point_masses (ch 7) id position θ

/-- Modelled from the spec: tree-level `point_masses` delegates to the root. -/
noncomputable def BarnesHutTree.point_masses (t : BarnesHutTree) (id : ℕ)
    (position : V3) (θ : ℝ) : List (V3 × ℚ) :=
  Node.point_masses t.root id position θ

/--
The `(id, center_of_mass, mass)` triples of all leaves of a subtree, in
left-to-right child order.  For a leaf a node's aggregate is exactly its
single body, so these are the bodies stored in the subtree.
-/
def Node.leafData : Node → List (ℕ × V3 × ℚ)
  | .empty _ _ _ _ => []
  | .leaf mass c _ _ id => [(id, c, mass)]
  | .internal _ _ _ _ ch =>
      (ch 0).leafData ++ (ch 1).leafData ++ (ch 2).leafData ++ (ch 3).leafData
        ++ (ch 4).leafData ++ (ch 5).leafData ++ (ch 6).leafData ++ (ch 7).leafData

/-- The stored positions (leaf centres of mass) of all bodies in a subtree. -/
def Node.leafComs (n : Node) : List V3 := n.leafData.map fun b => b.2.1

/--
The centre of mass a fresh leaf records for a body inserted at `position`
with mass `m` into an empty node (mass 0, centre 0):
`(0 * 0 + position * m) / (0 + m)`, which is `position` when `m ≠ 0` and
the zero vector when `m = 0` (rational convention `0 / 0 = 0`; the `f32`
source produces `NaN` there instead).
-/
def insCom (position : V3) (m : ℚ) : V3 := comUpd 0 0 position m

/-- The leaf triple recorded for an inserted body `(id, position, mass)`. -/
def entryOf (b : ℕ × V3 × ℚ) : ℕ × V3 × ℚ := (b.1, insCom b.2.1 b.2.2, b.2.2)

/-- Membership of a point in the closed axis-aligned cube of centre `mid`, edge `s`. -/
def inCell (p mid : V3) (s : ℚ) : Bool :=
  decide (mid.x - s / 2 ≤ p.x ∧ p.x ≤ mid.x + s / 2
    ∧ mid.y - s / 2 ≤ p.y ∧ p.y ≤ mid.y + s / 2
    ∧ mid.z - s / 2 ≤ p.z ∧ p.z ≤ mid.z + s / 2)

/-- Chebyshev distance of two points: largest coordinate difference. -/
def dInf (p q : V3) : ℚ := max |p.x - q.x| (max |p.y - q.y| |p.z - q.z|)

/-- Geometry check for child `i` of an internal node: the stored midpoint
and size are the ones `mkChildren` would allocate. -/
def childGeom (mid : V3) (s : ℚ) (i : Fin 8) (c : Node) : Bool :=
  decide (c.midpoint = (mkChildren mid s i).midpoint) && decide (c.size = s / 2)

/--
Well-formedness used for the termination analysis of `insert`: sizes are
non-negative, every leaf stores its body's exact position inside its own
cell with non-zero mass, and the children of an internal node carry the
geometry `mkChildren` gave them.
-/
def wfB : Node → Bool
  | .empty _ _ _ s => decide (0 ≤ s)
  | .leaf m c mid s _ => inCell c mid s && decide (¬ m = 0) && decide (0 ≤ s)
  | .internal _ _ mid s ch =>
      decide (0 ≤ s)
        && (childGeom mid s 0 (ch 0) && wfB (ch 0))
        && (childGeom mid s 1 (ch 1) && wfB (ch 1))
        && (childGeom mid s 2 (ch 2) && wfB (ch 2))
        && (childGeom mid s 3 (ch 3) && wfB (ch 3))
        && (childGeom mid s 4 (ch 4) && wfB (ch 4))
        && (childGeom mid s 5 (ch 5) && wfB (ch 5))
        && (childGeom mid s 6 (ch 6) && wfB (ch 6))
        && (childGeom mid s 7 (ch 7) && wfB (ch 7))

/--
Zero bookkeeping invariant: every empty node has mass 0 and centre 0 (as
`Node::new` allocates them), and a leaf of mass 0 has centre 0 (the
rational image of the `NaN` the source would store there).  Needed to read
a split-off leaf's body back from its aggregate.
-/
def structZeroB : Node → Bool
  | .empty m c _ _ => decide (m = 0) && decide (c = 0)
  | .leaf m c _ _ _ => decide (m = 0 → c = 0)
  | .internal _ _ _ _ ch =>
      structZeroB (ch 0) && structZeroB (ch 1) && structZeroB (ch 2) && structZeroB (ch 3)
        && structZeroB (ch 4) && structZeroB (ch 5) && structZeroB (ch 6) && structZeroB (ch 7)

/-- All node sizes in a subtree are non-negative. -/
def sizeNonnegB : Node → Bool
  | .empty _ _ _ s => decide (0 ≤ s)
  | .leaf _ _ _ s _ => decide (0 ≤ s)
  | .internal _ _ _ s ch =>
      decide (0 ≤ s)
        && sizeNonnegB (ch 0) && sizeNonnegB (ch 1) && sizeNonnegB (ch 2) && sizeNonnegB (ch 3)
        && sizeNonnegB (ch 4) && sizeNonnegB (ch 5) && sizeNonnegB (ch 6) && sizeNonnegB (ch 7)

/--
Mass-sign invariant maintained when every inserted mass is positive:
empty nodes weigh 0, leaves and internal nodes weigh strictly more than 0.
-/
def massPosB : Node → Bool
  | .empty m _ _ _ => decide (m = 0)
  | .leaf m _ _ _ _ => decide (0 < m)
  | .internal m _ _ _ ch =>
      decide (0 < m)
        && massPosB (ch 0) && massPosB (ch 1) && massPosB (ch 2) && massPosB (ch 3)
        && massPosB (ch 4) && massPosB (ch 5) && massPosB (ch 6) && massPosB (ch 7)

/--
`Node::insert` instrumented to detect the division by zero of the
aggregate update (source line 105 divides by `self.mass + mass`): the
structure is identical to `Node.insert`, but the update step fails (and
the whole insertion returns `none`) when the divisor `mass + m` is zero —
the exact situation in which the `f32` source computes a non-finite
`center_of_mass`.
-/
def Node.insert_checked : ℕ → Node → ℕ → V3 → ℚ → Option Node
  | 0, _, _, _, _ => none
  | _ + 1, .empty mass c mid s, id, position, m =>
      if mass + m = 0 then none
      else some (.leaf (mass + m) (comUpd c mass position m) mid s id)
  | fuel + 1, .leaf mass c mid s prev_id, id, position, m =>
      match Node.insert_checked fuel (mkChildren mid s (branch_index c mid)) prev_id c mass with
      | none => none
      | some c1 =>
        let ch1 := updChild (mkChildren mid s) (branch_index c mid) c1
        match Node.insert_checked fuel (ch1 (branch_index position mid)) id position m with
        | none => none
        | some c2 =>
          if mass + m = 0 then none
          else some (.internal (mass + m) (comUpd c mass position m) mid s
            (updChild ch1 (branch_index position mid) c2))
  | fuel + 1, .internal mass c mid s ch, id, position, m =>
      match Node.insert_checked fuel (ch (branch_index position mid)) id position m with
      | none => none
      | some c1 =>
        if mass + m = 0 then none
        else some (.internal (mass + m) (comUpd c mass position m) mid s
          (updChild ch (branch_index position mid) c1))

/-- Sum of inserted masses of a body list. -/
def massSum (l : List (ℕ × V3 × ℚ)) : ℚ := (l.map fun b => b.2.2).sum

instance : AddCommMonoid V3 where
  add := (· + ·)
  zero := 0
  add_assoc a b c := by
    have hx : ∀ u v : V3, (u + v).x = u.x + v.x := fun _ _ => rfl
    have hy : ∀ u v : V3, (u + v).y = u.y + v.y := fun _ _ => rfl
    have hz : ∀ u v : V3, (u + v).z = u.z + v.z := fun _ _ => rfl
    ext <;> simp [hx, hy, hz, add_assoc]
  zero_add a := by
    have hx : ∀ u v : V3, (u + v).x = u.x + v.x := fun _ _ => rfl
    have hy : ∀ u v : V3, (u + v).y = u.y + v.y := fun _ _ => rfl
    have hz : ∀ u v : V3, (u + v).z = u.z + v.z := fun _ _ => rfl
    have h0x : (V3.x 0) = 0 := rfl
    have h0y : (V3.y 0) = 0 := rfl
    have h0z : (V3.z 0) = 0 := rfl
    ext <;> simp [hx, hy, hz, h0x, h0y, h0z]
  add_zero a := by
    have hx : ∀ u v : V3, (u + v).x = u.x + v.x := fun _ _ => rfl
    have hy : ∀ u v : V3, (u + v).y = u.y + v.y := fun _ _ => rfl
    have hz : ∀ u v : V3, (u + v).z = u.z + v.z := fun _ _ => rfl
    have h0x : (V3.x 0) = 0 := rfl
    have h0y : (V3.y 0) = 0 := rfl
    have h0z : (V3.z 0) = 0 := rfl
    ext <;> simp [hx, hy, hz, h0x, h0y, h0z]
  add_comm a b := by
    have hx : ∀ u v : V3, (u + v).x = u.x + v.x := fun _ _ => rfl
    have hy : ∀ u v : V3, (u + v).y = u.y + v.y := fun _ _ => rfl
    have hz : ∀ u v : V3, (u + v).z = u.z + v.z := fun _ _ => rfl
    ext <;> simp [hx, hy, hz, add_comm]
  nsmul := nsmulRec

/-- Mass-weighted position sum of a body list. -/
def wSum (l : List (ℕ × V3 × ℚ)) : V3 := (l.map fun b => b.2.2 • b.2.1).sum

/-- Mass-weighted average position: `(Σ mᵢ pᵢ) / (Σ mᵢ)` (componentwise). -/
def wAvg (l : List (ℕ × V3 × ℚ)) : V3 := (wSum l).divS (massSum l)

/--
Per-node aggregation statement of the spec: the node's `mass` is the sum
of the masses of the bodies in its subtree and its `center_of_mass` is
their mass-weighted average.
-/
def Agg (n : Node) : Prop :=
  n.mass = massSum n.leafData ∧ n.center_of_mass = wAvg n.leafData

/-- `Agg` at every node of a subtree. -/
def AggAll : Node → Prop
  | .empty m c mid s => Agg (.empty m c mid s)
  | .leaf m c mid s i => Agg (.leaf m c mid s i)
  | .internal m c mid s ch =>
      Agg (.internal m c mid s ch)
        ∧ AggAll (ch 0) ∧ AggAll (ch 1) ∧ AggAll (ch 2) ∧ AggAll (ch 3)
        ∧ AggAll (ch 4) ∧ AggAll (ch 5) ∧ AggAll (ch 6) ∧ AggAll (ch 7)

/-- One body's contribution to the exact pairwise sum: the pairwise law if
its id differs from the query id, zero otherwise. -/
noncomputable def contrib (qid : ℕ) (p : V3) (k : ℝ) (e : ℤ) (b : ℕ × V3 × ℚ) : V3R :=
  if b.1 ≠ qid then force p b.2.1 b.2.2 k e else 0

/-- The exact O(n²)-style pairwise sum over a list of bodies. -/
noncomputable def exactSum (qid : ℕ) (p : V3) (k : ℝ) (e : ℤ)
    (l : List (ℕ × V3 × ℚ)) : V3R :=
  (l.map (contrib qid p k e)).sum

/-- Fold the pairwise law over a list of `(position, mass)` aggregates. -/
noncomputable def pmSum (p : V3) (k : ℝ) (e : ℤ) (l : List (V3 × ℚ)) : V3R :=
  (l.map fun qm => force p qm.1 qm.2 k e).sum

/-- The sign pattern of octant `i`: `-1` on an axis whose bit is unset,
`+1` on an axis whose bit is set. -/
def octant_sign (i : Fin 8) : V3 :=
  ⟨if i.val % 2 = 1 then 1 else -1,
   if i.val / 2 % 2 = 1 then 1 else -1,
   if i.val / 4 = 1 then 1 else -1⟩

/-- Non-termination of `Node.insert` at fixed arguments: out of fuel for
every fuel bound. -/
def Diverges (n : Node) (id : ℕ) (position : V3) (m : ℚ) : Prop :=
  ∀ fuel, Node.insert fuel n id position m = none

/-- Componentwise order on bounding-box corners. -/
def vleB (a b : V3) : Bool := decide (a.x ≤ b.x ∧ a.y ≤ b.y ∧ a.z ≤ b.z)

/--
The direction vector as worded by the spec: `u = normalize(q - p)`, the
zero vector if `q == p`.
-/
noncomputable def u_spec (p q : V3) : V3R :=
  if q = p then 0 else (len (q - p))⁻¹ • (q - p).castR

theorem V3.zero_def : (0 : V3) = ⟨0, 0, 0⟩ := rfl

theorem V3.add_def (a b : V3) : a + b = ⟨a.x + b.x, a.y + b.y, a.z + b.z⟩ := rfl

theorem V3.sub_def (a b : V3) : a - b = ⟨a.x - b.x, a.y - b.y, a.z - b.z⟩ := rfl

theorem V3.smul_def (t : ℚ) (v : V3) : t • v = ⟨t * v.x, t * v.y, t * v.z⟩ := rfl

theorem V3R.zeroR_def : (0 : V3R) = ⟨0, 0, 0⟩ := rfl

theorem V3R.addR_def (a b : V3R) : a + b = ⟨a.x + b.x, a.y + b.y, a.z + b.z⟩ := rfl

theorem V3R.smulR_def (t : ℝ) (v : V3R) : t • v = ⟨t * v.x, t * v.y, t * v.z⟩ := rfl

theorem V3.sub_eq_zero_iff (a b : V3) : a - b = 0 ↔ a = b := by
  constructor
  · intro h
    have hx := congrArg V3.x h
    have hy := congrArg V3.y h
    have hz := congrArg V3.z h
    simp [V3.sub_def, V3.zero_def] at hx hy hz
    ext <;> simp [sub_eq_zero.mp hx, sub_eq_zero.mp hy, sub_eq_zero.mp hz]
  · intro h; subst h; ext <;> simp [V3.sub_def, V3.zero_def]

theorem len_nonneg (v : V3) : 0 ≤ len v := Real.sqrt_nonneg _

theorem len_eq_zero_iff (v : V3) : len v = 0 ↔ v = 0 := by
  unfold len
  rw [Real.sqrt_eq_zero (by positivity)]
  constructor
  · intro h
    have hx : ((v.x : ℝ)) ^ 2 = 0 := by
      nlinarith [sq_nonneg ((v.x : ℝ)), sq_nonneg ((v.y : ℝ)), sq_nonneg ((v.z : ℝ))]
    have hy : ((v.y : ℝ)) ^ 2 = 0 := by
      nlinarith [sq_nonneg ((v.x : ℝ)), sq_nonneg ((v.y : ℝ)), sq_nonneg ((v.z : ℝ))]
    have hz : ((v.z : ℝ)) ^ 2 = 0 := by
      nlinarith [sq_nonneg ((v.x : ℝ)), sq_nonneg ((v.y : ℝ)), sq_nonneg ((v.z : ℝ))]
    have hx0 : v.x = 0 := by exact_mod_cast pow_eq_zero_iff (n := 2) (by norm_num) |>.mp hx
    have hy0 : v.y = 0 := by exact_mod_cast pow_eq_zero_iff (n := 2) (by norm_num) |>.mp hy
    have hz0 : v.z = 0 := by exact_mod_cast pow_eq_zero_iff (n := 2) (by norm_num) |>.mp hz
    ext <;> simp [hx0, hy0, hz0, V3.zero_def]
  · intro h; subst h; simp [V3.zero_def]

theorem mkChildren_size (mid : V3) (s : ℚ) (i : Fin 8) :
    (mkChildren mid s i).size = s / 2 := by
  fin_cases i <;> rfl

/-- The midpoint of the child that `branch_index` selects for `p`, written
per axis: `mid - s/4` shifted up by `s/2` on every axis where `p` is on
the upper side. -/
theorem mkChildren_branch_midpoint (mid : V3) (s : ℚ) (p : V3) :
    (mkChildren mid s (branch_index p mid)).midpoint =
      ⟨mid.x - s / 4 + (if 0 ≤ p.x - mid.x then s / 2 else 0),
       mid.y - s / 4 + (if 0 ≤ p.y - mid.y then s / 2 else 0),
       mid.z - s / 4 + (if 0 ≤ p.z - mid.z then s / 2 else 0)⟩ := by
  by_cases hx : 0 ≤ p.x - mid.x <;> by_cases hy : 0 ≤ p.y - mid.y
    <;> by_cases hz : 0 ≤ p.z - mid.z <;>
    simp [branch_index, V3.sub_def, hx, hy, hz, mkChildren, Node.new, Node.midpoint,
      V3.subS, V3.divS, V3.add_def, V3.smul_def, V3.mk.injEq] <;>
    refine ⟨by ring, by ring, by ring⟩

theorem inCell_iff (p mid : V3) (s : ℚ) :
    inCell p mid s = true ↔
      mid.x - s / 2 ≤ p.x ∧ p.x ≤ mid.x + s / 2
        ∧ mid.y - s / 2 ≤ p.y ∧ p.y ≤ mid.y + s / 2
        ∧ mid.z - s / 2 ≤ p.z ∧ p.z ≤ mid.z + s / 2 := by
  simp [inCell]

/-- A point stays inside the cell of the child its own branch index selects. -/
theorem cell_step (p mid : V3) (s : ℚ) (h : inCell p mid s = true) :
    inCell p (mkChildren mid s (branch_index p mid)).midpoint (s / 2) = true := by
  rw [mkChildren_branch_midpoint]
  rw [inCell_iff] at h
  obtain ⟨h1, h2, h3, h4, h5, h6⟩ := h
  rw [inCell_iff]
  refine ⟨?_, ?_, ?_, ?_, ?_, ?_⟩ <;> dsimp only <;> split_ifs with hc <;> linarith

/-- Two points of one closed cell differ by at most the edge length on
every axis. -/
theorem dInf_le_of_inCell (p q mid : V3) (s : ℚ) (hp : inCell p mid s = true)
    (hq : inCell q mid s = true) : dInf p q ≤ s := by
  rw [inCell_iff] at hp hq
  obtain ⟨a1, a2, a3, a4, a5, a6⟩ := hp
  obtain ⟨b1, b2, b3, b4, b5, b6⟩ := hq
  refine max_le (abs_le.mpr ⟨by linarith, by linarith⟩)
    (max_le (abs_le.mpr ⟨by linarith, by linarith⟩) (abs_le.mpr ⟨by linarith, by linarith⟩))

theorem dInf_pos (p q : V3) (h : p ≠ q) : 0 < dInf p q := by
  rcases lt_or_eq_of_le (le_max_iff.mpr (Or.inl (abs_nonneg (p.x - q.x))) :
      (0 : ℚ) ≤ dInf p q) with hlt | heq
  · exact hlt
  · exfalso
    apply h
    have hx : |p.x - q.x| ≤ 0 := le_trans (le_max_left _ _) heq.symm.le
    have hy : |p.y - q.y| ≤ 0 :=
      le_trans (le_trans (le_max_left _ _) (le_max_right _ _)) heq.symm.le
    have hz : |p.z - q.z| ≤ 0 :=
      le_trans (le_trans (le_max_right _ _) (le_max_right _ _)) heq.symm.le
    have := abs_nonneg (p.x - q.x)
    ext
    · linarith [abs_nonneg (p.x - q.x), neg_abs_le (p.x - q.x), le_abs_self (p.x - q.x)]
    · linarith [abs_nonneg (p.y - q.y), neg_abs_le (p.y - q.y), le_abs_self (p.y - q.y)]
    · linarith [abs_nonneg (p.z - q.z), neg_abs_le (p.z - q.z), le_abs_self (p.z - q.z)]

theorem pmSum_nil (p : V3) (k : ℝ) (e : ℤ) : pmSum p k e [] = 0 := rfl

theorem pmSum_append (p : V3) (k : ℝ) (e : ℤ) (l1 l2 : List (V3 × ℚ)) :
    pmSum p k e (l1 ++ l2) = pmSum p k e l1 + pmSum p k e l2 := by
  simp [pmSum]

theorem node_force_eq_pmSum (qid : ℕ) (p : V3) (k : ℝ) (e : ℤ) (θ : ℝ) :
    ∀ n : Node, n.force qid p k e θ = pmSum p k e (n.point_masses qid p θ) := by
  intro n
  induction n with
  | empty m c mid s => simp [Node.force, Node.point_masses, pmSum]
  | leaf m c mid s i =>
      by_cases h : qid ≠ i <;> simp [Node.force, Node.point_masses, pmSum, h]
  | internal m c mid s ch ih =>
      by_cases h : accept s (len (c - p)) θ
      · simp [Node.force, Node.point_masses, h, pmSum]
      · simp only [Node.force, Node.point_masses, if_neg h, pmSum_append]
        rw [ih 0, ih 1, ih 2, ih 3, ih 4, ih 5, ih 6, ih 7]

/--
Claim C9: the tree exposes `point_masses(id, position, theta)` returning
the list of aggregates the same traversal as `force` would treat as
distinct contributors; it differs from `force` only in the terminal
action, so folding the pairwise law over its result recovers `force`
exactly.  (`point_masses` itself is modelled from the spec, being absent
from `src/src/barnes_hut.rs`.)
-/
theorem claim_c9_point_masses (t : BarnesHutTree) (qid : ℕ) (p : V3) (k : ℝ)
    (e : ℤ) (θ : ℝ) :
    BarnesHutTree.force t qid p k e θ
      = pmSum p k e (BarnesHutTree.point_masses t qid p θ) :=
  node_force_eq_pmSum qid p k e θ t.root

theorem normalize_or_zero_eq_u_spec (p q : V3) :
    normalize_or_zero (q - p) = u_spec p q := by
  unfold normalize_or_zero u_spec
  by_cases h : q = p
  · subst h
    simp [(V3.sub_eq_zero_iff q q).mpr rfl]
  · have hne : ¬ (q - p = 0) := fun hc => h ((V3.sub_eq_zero_iff q p).mp hc)
    simp [h, hne]

/--
Claim C3: the pairwise force evaluated by `force` is
`k * m * u * (r + ε)^e` with `u = normalize(q - p)` (zero when `q = p`)
and `r = |q - p|`, for positive contributor mass; contributors of
non-positive mass contribute exactly the zero vector.
-/
theorem claim_c3_pairwise_law (p q : V3) (m : ℚ) (k : ℝ) (e : ℤ) :
    (m ≤ 0 → force p q m k e = 0)
      ∧ (0 < m → force p q m k e
          = (k * (m : ℝ) * (len (q - p) + eps) ^ e) • u_spec p q) := by
  constructor
  · intro h; simp [force, h]
  · intro h
    simp only [force, if_neg (not_le.mpr h), normalize_or_zero_eq_u_spec]

/-- Witness for C3 at a concrete input (mass `1`, then mass `-1`). -/
theorem claim_c3_pairwise_law_witness :
    force ⟨0,0,0⟩ ⟨1,0,0⟩ (-1) 1 2 = 0
      ∧ force ⟨0,0,0⟩ ⟨1,0,0⟩ 1 1 2
          = (1 * ((1 : ℚ) : ℝ) * (len ((⟨1,0,0⟩ : V3) - ⟨0,0,0⟩) + eps) ^ (2 : ℤ))
              • u_spec ⟨0,0,0⟩ ⟨1,0,0⟩ :=
  ⟨(claim_c3_pairwise_law ⟨0,0,0⟩ ⟨1,0,0⟩ (-1) 1 2).1 (by norm_num),
   (claim_c3_pairwise_law ⟨0,0,0⟩ ⟨1,0,0⟩ 1 1 2).2 (by norm_num)⟩

/--
Counterexample to C4 as stated: at a position exactly equal to the
midpoint every coordinate is tied, so the claim ("lower octant on a tied
axis") demands child 0; the code (Rust `signum(+0.0) = 1.0`) selects
child 7, the all-upper octant.
-/
theorem claim_c4_counterexample :
    branch_index ⟨0,0,0⟩ ⟨0,0,0⟩ = (7 : Fin 8)
      ∧ ¬ branch_index ⟨0,0,0⟩ ⟨0,0,0⟩ = (0 : Fin 8) := by
  have h7 : branch_index ⟨0,0,0⟩ ⟨0,0,0⟩ = (7 : Fin 8) := by
    apply Fin.ext
    simp [branch_index, V3.sub_def]
  refine ⟨h7, ?_⟩
  rw [h7]
  decide

/--
Claim C4, amended: octant choice is componentwise comparison with the
midpoint, but a tied coordinate is resolved toward the *upper* (positive)
octant on that axis: bit `x`/`y`/`z` of the index is set exactly when the
coordinate is `≥` the midpoint's.
-/
theorem claim_c4_octant_amended (p mid : V3) :
    ((branch_index p mid).val % 2 = 1 ↔ mid.x ≤ p.x)
      ∧ ((branch_index p mid).val / 2 % 2 = 1 ↔ mid.y ≤ p.y)
      ∧ ((branch_index p mid).val / 4 = 1 ↔ mid.z ≤ p.z) := by
  by_cases hx : mid.x ≤ p.x <;> by_cases hy : mid.y ≤ p.y
    <;> by_cases hz : mid.z ≤ p.z <;>
    simp [branch_index, V3.sub_def, sub_nonneg, hx, hy, hz] <;> decide

/--
Counterexample to C5 as stated: splitting the cell of midpoint `0`, size
`2` gives the all-lower child the midpoint `(-1/2, -1/2, -1/2)`, an
offset of `size_child / 2 = 1/2` per axis, not of `size_child = 1` as the
claim states (which would put it at `(-1, -1, -1)`).
-/
theorem claim_c5_counterexample :
    (mkChildren ⟨0,0,0⟩ 2 ⟨0, by norm_num⟩).midpoint = ⟨-(1/2), -(1/2), -(1/2)⟩
      ∧ ¬ (mkChildren ⟨0,0,0⟩ 2 ⟨0, by norm_num⟩).midpoint
          = (⟨0,0,0⟩ : V3) + ((2 : ℚ) / 2) • octant_sign ⟨0, by norm_num⟩ := by
  have h1 : (mkChildren ⟨0,0,0⟩ 2 ⟨0, by norm_num⟩).midpoint
      = (⟨-(1/2), -(1/2), -(1/2)⟩ : V3) := by
    simp [mkChildren, Node.new, Node.midpoint, V3.subS, V3.divS, V3.add_def,
      V3.mk.injEq]
    norm_num
  have h2 : (⟨0,0,0⟩ : V3) + ((2 : ℚ) / 2) • octant_sign ⟨0, by norm_num⟩
      = (⟨-1, -1, -1⟩ : V3) := by
    simp [octant_sign, V3.add_def, V3.smul_def, V3.mk.injEq]
  refine ⟨h1, ?_⟩
  rw [h1, h2]
  intro hc
  have hx := congrArg V3.x hc
  norm_num at hx

/--
Claim C5, amended: each child has size exactly half the parent's, and its
midpoint is offset from the parent's by *half* the child size (a quarter
of the parent size) along each axis, signed by the child's octant.
-/
theorem claim_c5_halving_amended (mid : V3) (s : ℚ) (i : Fin 8) :
    (mkChildren mid s i).size = s / 2
      ∧ (mkChildren mid s i).midpoint = mid + (s / 4) • octant_sign i := by
  refine ⟨mkChildren_size mid s i, ?_⟩
  fin_cases i <;>
    simp [mkChildren, octant_sign, Node.new, Node.midpoint, V3.subS, V3.divS,
      V3.add_def, V3.smul_def, V3.mk.injEq] <;>
    refine ⟨by ring, by ring, by ring⟩

/--
Claim C6: on an internal root whose acceptance test `size/d < theta`
passes at nonzero distance `d` from the aggregate centre, `force` is one
single pairwise evaluation against the node's aggregate mass and centre —
independent of the query id, with no self-exclusion.
-/
theorem claim_c6_degenerate (M : ℚ) (C mid : V3) (s : ℚ) (ch : Fin 8 → Node)
    (qid : ℕ) (p : V3) (k : ℝ) (e : ℤ) (θ : ℝ)
    (hd : len (C - p) ≠ 0) (hθ : (s : ℝ) / len (C - p) < θ) :
    Node.force (Node.internal M C mid s ch) qid p k e θ = force p C M k e := by
  have hacc : accept s (len (C - p)) θ := Or.inr ⟨hd, hθ⟩
  simp [Node.force, hacc]

/-- Witness for C6: aggregate at the origin, query at distance 3, size 2,
theta 1, so `2/3 < 1` accepts the whole root. -/
theorem claim_c6_degenerate_witness :
    Node.force (Node.internal 2 ⟨0,0,0⟩ ⟨0,0,0⟩ 2 (mkChildren ⟨0,0,0⟩ 2)) 0
        ⟨3,0,0⟩ 1 (-2) 1
      = force ⟨3,0,0⟩ ⟨0,0,0⟩ 2 1 (-2) := by
  have hlen : len ((⟨0,0,0⟩ : V3) - ⟨3,0,0⟩) = 3 := by
    unfold len
    norm_num [V3.sub_def]
    rw [show (9 : ℝ) = 3 ^ 2 by norm_num]
    exact Real.sqrt_sq (by norm_num)
  exact claim_c6_degenerate 2 ⟨0,0,0⟩ ⟨0,0,0⟩ 2 (mkChildren ⟨0,0,0⟩ 2) 0 ⟨3,0,0⟩
    1 (-2) 1 (by rw [hlen]; norm_num) (by rw [hlen]; norm_num)

/--
Claim C7: in a tree holding exactly one inserted body, querying `force`
with that body's own id (and any position, constants and theta) returns
the zero vector — the single leaf matches the query id and is excluded.
-/
theorem claim_c7_self_exclusion (fuel : ℕ) (min_bound max_bound : V3) (id : ℕ)
    (p : V3) (m : ℚ) (k : ℝ) (e : ℤ) (θ : ℝ) :
    (BarnesHutTree.insert (fuel + 1) (BarnesHutTree.new min_bound max_bound) id p m).map
        (fun t => t.force id p k e θ) = some 0 := by
  simp [BarnesHutTree.insert, BarnesHutTree.new, Node.new, Node.insert,
    BarnesHutTree.force, Node.force]

theorem insert_zero (n : Node) (id : ℕ) (p : V3) (m : ℚ) :
    Node.insert 0 n id p m = none := rfl

theorem insert_empty (fuel : ℕ) (M : ℚ) (C mid : V3) (s : ℚ) (id : ℕ) (p : V3) (m : ℚ) :
    Node.insert (fuel + 1) (.empty M C mid s) id p m
      = some (.leaf (M + m) (comUpd C M p m) mid s id) := rfl

theorem insert_leaf (fuel : ℕ) (M : ℚ) (C mid : V3) (s : ℚ) (pid id : ℕ)
    (p : V3) (m : ℚ) :
    Node.insert (fuel + 1) (.leaf M C mid s pid) id p m
      = match Node.insert fuel (mkChildren mid s (branch_index C mid)) pid C M with
        | none => none
        | some c1 =>
          match Node.insert fuel
              (updChild (mkChildren mid s) (branch_index C mid) c1 (branch_index p mid))
              id p m with
          | none => none
          | some c2 =>
            some (.internal (M + m) (comUpd C M p m) mid s
              (updChild (updChild (mkChildren mid s) (branch_index C mid) c1)
                (branch_index p mid) c2)) := rfl

theorem insert_internal (fuel : ℕ) (M : ℚ) (C mid : V3) (s : ℚ) (ch : Fin 8 → Node)
    (id : ℕ) (p : V3) (m : ℚ) :
    Node.insert (fuel + 1) (.internal M C mid s ch) id p m
      = match Node.insert fuel (ch (branch_index p mid)) id p m with
        | none => none
        | some c1 =>
          some (.internal (M + m) (comUpd C M p m) mid s
            (updChild ch (branch_index p mid) c1)) := rfl

theorem updChild_same (ch : Fin 8 → Node) (i : Fin 8) (c : Node) :
    updChild ch i c i = c := by simp [updChild]

theorem updChild_other (ch : Fin 8 → Node) (i j : Fin 8) (c : Node) (h : j ≠ i) :
    updChild ch i c j = ch j := by simp [updChild, h]

/-- Every freshly allocated child is an empty `Node.new` of half size. -/
theorem mkChildren_shape (mid : V3) (s : ℚ) (i : Fin 8) :
    mkChildren mid s i = .empty 0 0 (mkChildren mid s i).midpoint (s / 2) := by
  fin_cases i <;> rfl

theorem comUpd_zero_zero (p : V3) (m : ℚ) : comUpd 0 0 p m = insCom p m := rfl

theorem insCom_of_ne (p : V3) (m : ℚ) (h : m ≠ 0) : insCom p m = p := by
  unfold insCom comUpd
  ext <;> simp [V3.smul_def, V3.divS, V3.add_def, V3.zero_def] <;>
    exact mul_div_cancel_left₀ _ h

theorem insCom_zero_mass (p : V3) : insCom p 0 = 0 := by
  unfold insCom comUpd
  ext <;> simp [V3.smul_def, V3.divS, V3.add_def, V3.zero_def]

theorem massPosB_internal_iff (M : ℚ) (C mid : V3) (s : ℚ) (ch : Fin 8 → Node) :
    massPosB (.internal M C mid s ch) = true
      ↔ 0 < M ∧ ∀ j : Fin 8, massPosB (ch j) = true := by
  simp only [massPosB, Bool.and_eq_true, decide_eq_true_eq]
  constructor
  · intro h
    exact ⟨by tauto, fun j => by fin_cases j <;> tauto⟩
  · intro ⟨hM, hj⟩
    exact ⟨⟨⟨⟨⟨⟨⟨⟨hM, hj 0⟩, hj 1⟩, hj 2⟩, hj 3⟩, hj 4⟩, hj 5⟩, hj 6⟩, hj 7⟩

theorem sizeNonnegB_internal_iff (M : ℚ) (C mid : V3) (s : ℚ) (ch : Fin 8 → Node) :
    sizeNonnegB (.internal M C mid s ch) = true
      ↔ 0 ≤ s ∧ ∀ j : Fin 8, sizeNonnegB (ch j) = true := by
  simp only [sizeNonnegB, Bool.and_eq_true, decide_eq_true_eq]
  constructor
  · intro h
    exact ⟨by tauto, fun j => by fin_cases j <;> tauto⟩
  · intro ⟨hs, hj⟩
    exact ⟨⟨⟨⟨⟨⟨⟨⟨hs, hj 0⟩, hj 1⟩, hj 2⟩, hj 3⟩, hj 4⟩, hj 5⟩, hj 6⟩, hj 7⟩

theorem structZeroB_internal_iff (M : ℚ) (C mid : V3) (s : ℚ) (ch : Fin 8 → Node) :
    structZeroB (.internal M C mid s ch) = true
      ↔ ∀ j : Fin 8, structZeroB (ch j) = true := by
  simp only [structZeroB, Bool.and_eq_true]
  constructor
  · intro h
    intro j; fin_cases j <;> tauto
  · intro hj
    exact ⟨⟨⟨⟨⟨⟨⟨hj 0, hj 1⟩, hj 2⟩, hj 3⟩, hj 4⟩, hj 5⟩, hj 6⟩, hj 7⟩

theorem wfB_internal_iff (M : ℚ) (C mid : V3) (s : ℚ) (ch : Fin 8 → Node) :
    wfB (.internal M C mid s ch) = true
      ↔ 0 ≤ s ∧ ∀ j : Fin 8, childGeom mid s j (ch j) = true ∧ wfB (ch j) = true := by
  simp only [wfB, Bool.and_eq_true, decide_eq_true_eq]
  constructor
  · intro h
    exact ⟨by tauto, fun j => by fin_cases j <;> tauto⟩
  · intro ⟨hs, hj⟩
    exact ⟨⟨⟨⟨⟨⟨⟨⟨hs, (hj 0).1, (hj 0).2⟩, (hj 1).1, (hj 1).2⟩, (hj 2).1, (hj 2).2⟩,
      (hj 3).1, (hj 3).2⟩, (hj 4).1, (hj 4).2⟩, (hj 5).1, (hj 5).2⟩,
      (hj 6).1, (hj 6).2⟩, (hj 7).1, (hj 7).2⟩

/-- A successful insert keeps the node's midpoint and size and performs
the aggregate update with the old mass and centre. -/
theorem insert_fields (fuel : ℕ) (n : Node) (id : ℕ) (p : V3) (m : ℚ) (t : Node)
    (h : Node.insert fuel n id p m = some t) :
    t.midpoint = n.midpoint ∧ t.size = n.size ∧ t.mass = n.mass + m
      ∧ t.center_of_mass = comUpd n.center_of_mass n.mass p m := by
  cases fuel with
  | zero => simp [insert_zero] at h
  | succ f =>
    cases n with
    | empty M C mid s =>
        rw [insert_empty] at h
        obtain rfl := Option.some_injective _ h.symm
        simp [Node.midpoint, Node.size, Node.mass, Node.center_of_mass]
    | leaf M C mid s pid =>
        cases h1 : Node.insert f (mkChildren mid s (branch_index C mid)) pid C M with
        | none =>
            simp only [insert_leaf, h1] at h
            exact Option.noConfusion h
        | some c1 =>
          cases h2 : Node.insert f
              (updChild (mkChildren mid s) (branch_index C mid) c1 (branch_index p mid))
              id p m with
          | none =>
              simp only [insert_leaf, h1, h2] at h
              exact Option.noConfusion h
          | some c2 =>
            simp only [insert_leaf, h1, h2, Option.some.injEq] at h
            subst h
            simp [Node.midpoint, Node.size, Node.mass, Node.center_of_mass]
    | internal M C mid s ch =>
        cases h1 : Node.insert f (ch (branch_index p mid)) id p m with
        | none =>
            simp only [insert_internal, h1] at h
            exact Option.noConfusion h
        | some c1 =>
          simp only [insert_internal, h1, Option.some.injEq] at h
          subst h
          simp [Node.midpoint, Node.size, Node.mass, Node.center_of_mass]

theorem mkChildren_massPos (mid : V3) (s : ℚ) (i : Fin 8) :
    massPosB (mkChildren mid s i) = true := by
  rw [mkChildren_shape]; simp [massPosB]

theorem mkChildren_sizeNonneg (mid : V3) (s : ℚ) (i : Fin 8) (h : 0 ≤ s) :
    sizeNonnegB (mkChildren mid s i) = true := by
  rw [mkChildren_shape]; simp [sizeNonnegB]; linarith

theorem mkChildren_structZero (mid : V3) (s : ℚ) (i : Fin 8) :
    structZeroB (mkChildren mid s i) = true := by
  rw [mkChildren_shape]; simp [structZeroB]

theorem mkChildren_leafData (mid : V3) (s : ℚ) (i : Fin 8) :
    (mkChildren mid s i).leafData = [] := by
  rw [mkChildren_shape]; rfl

theorem massPos_insert :
    ∀ (fuel : ℕ) (n : Node) (id : ℕ) (p : V3) (m : ℚ) (t : Node), 0 < m →
      massPosB n = true → Node.insert fuel n id p m = some t → massPosB t = true := by
  intro fuel
  induction fuel with
  | zero => intro n id p m t hm hn h; exact Option.noConfusion h
  | succ f ih =>
    intro n id p m t hm hn h
    cases n with
    | empty M C mid s =>
        rw [insert_empty] at h
        obtain rfl := (Option.some.injEq _ _).mp h
        simp only [massPosB, decide_eq_true_eq] at hn ⊢
        linarith
    | leaf M C mid s pid =>
        simp only [massPosB, decide_eq_true_eq] at hn
        cases h1 : Node.insert f (mkChildren mid s (branch_index C mid)) pid C M with
        | none => simp only [insert_leaf, h1] at h; exact Option.noConfusion h
        | some c1 =>
          have hc1 : massPosB c1 = true := ih _ pid C M c1 hn (mkChildren_massPos _ _ _) h1
          cases h2 : Node.insert f
              (updChild (mkChildren mid s) (branch_index C mid) c1 (branch_index p mid))
              id p m with
          | none => simp only [insert_leaf, h1, h2] at h; exact Option.noConfusion h
          | some c2 =>
            have hch : massPosB
                (updChild (mkChildren mid s) (branch_index C mid) c1
                  (branch_index p mid)) = true := by
              by_cases hb : branch_index p mid = branch_index C mid
              · rw [hb, updChild_same]; exact hc1
              · rw [updChild_other _ _ _ _ hb]; exact mkChildren_massPos _ _ _
            have hc2 : massPosB c2 = true := ih _ id p m c2 hm hch h2
            simp only [insert_leaf, h1, h2, Option.some.injEq] at h
            subst h
            rw [massPosB_internal_iff]
            refine ⟨by linarith, ?_⟩
            intro j
            by_cases hj2 : j = branch_index p mid
            · rw [hj2, updChild_same]; exact hc2
            · rw [updChild_other _ _ _ _ hj2]
              by_cases hj1 : j = branch_index C mid
              · rw [hj1, updChild_same]; exact hc1
              · rw [updChild_other _ _ _ _ hj1]; exact mkChildren_massPos _ _ _
    | internal M C mid s ch =>
        rw [massPosB_internal_iff] at hn
        cases h1 : Node.insert f (ch (branch_index p mid)) id p m with
        | none => simp only [insert_internal, h1] at h; exact Option.noConfusion h
        | some c1 =>
          have hc1 : massPosB c1 = true := ih _ id p m c1 hm (hn.2 _) h1
          simp only [insert_internal, h1, Option.some.injEq] at h
          subst h
          rw [massPosB_internal_iff]
          refine ⟨by linarith [hn.1], ?_⟩
          intro j
          by_cases hj : j = branch_index p mid
          · rw [hj, updChild_same]; exact hc1
          · rw [updChild_other _ _ _ _ hj]; exact hn.2 j

theorem sizeNonneg_insert :
    ∀ (fuel : ℕ) (n : Node) (id : ℕ) (p : V3) (m : ℚ) (t : Node),
      sizeNonnegB n = true → Node.insert fuel n id p m = some t →
      sizeNonnegB t = true := by
  intro fuel
  induction fuel with
  | zero => intro n id p m t hn h; exact Option.noConfusion h
  | succ f ih =>
    intro n id p m t hn h
    cases n with
    | empty M C mid s =>
        rw [insert_empty] at h
        obtain rfl := (Option.some.injEq _ _).mp h
        simpa [sizeNonnegB] using hn
    | leaf M C mid s pid =>
        simp only [sizeNonnegB, decide_eq_true_eq] at hn
        cases h1 : Node.insert f (mkChildren mid s (branch_index C mid)) pid C M with
        | none => simp only [insert_leaf, h1] at h; exact Option.noConfusion h
        | some c1 =>
          have hc1 : sizeNonnegB c1 = true :=
            ih _ pid C M c1 (mkChildren_sizeNonneg _ _ _ hn) h1
          cases h2 : Node.insert f
              (updChild (mkChildren mid s) (branch_index C mid) c1 (branch_index p mid))
              id p m with
          | none => simp only [insert_leaf, h1, h2] at h; exact Option.noConfusion h
          | some c2 =>
            have hch : sizeNonnegB
                (updChild (mkChildren mid s) (branch_index C mid) c1
                  (branch_index p mid)) = true := by
              by_cases hb : branch_index p mid = branch_index C mid
              · rw [hb, updChild_same]; exact hc1
              · rw [updChild_other _ _ _ _ hb]; exact mkChildren_sizeNonneg _ _ _ hn
            have hc2 : sizeNonnegB c2 = true := ih _ id p m c2 hch h2
            simp only [insert_leaf, h1, h2, Option.some.injEq] at h
            subst h
            rw [sizeNonnegB_internal_iff]
            refine ⟨hn, ?_⟩
            intro j
            by_cases hj2 : j = branch_index p mid
            · rw [hj2, updChild_same]; exact hc2
            · rw [updChild_other _ _ _ _ hj2]
              by_cases hj1 : j = branch_index C mid
              · rw [hj1, updChild_same]; exact hc1
              · rw [updChild_other _ _ _ _ hj1]; exact mkChildren_sizeNonneg _ _ _ hn
    | internal M C mid s ch =>
        rw [sizeNonnegB_internal_iff] at hn
        cases h1 : Node.insert f (ch (branch_index p mid)) id p m with
        | none => simp only [insert_internal, h1] at h; exact Option.noConfusion h
        | some c1 =>
          have hc1 : sizeNonnegB c1 = true := ih _ id p m c1 (hn.2 _) h1
          simp only [insert_internal, h1, Option.some.injEq] at h
          subst h
          rw [sizeNonnegB_internal_iff]
          refine ⟨hn.1, ?_⟩
          intro j
          by_cases hj : j = branch_index p mid
          · rw [hj, updChild_same]; exact hc1
          · rw [updChild_other _ _ _ _ hj]; exact hn.2 j

theorem structZero_insert :
    ∀ (fuel : ℕ) (n : Node) (id : ℕ) (p : V3) (m : ℚ) (t : Node),
      structZeroB n = true → Node.insert fuel n id p m = some t →
      structZeroB t = true := by
  intro fuel
  induction fuel with
  | zero => intro n id p m t hn h; exact Option.noConfusion h
  | succ f ih =>
    intro n id p m t hn h
    cases n with
    | empty M C mid s =>
        rw [insert_empty] at h
        obtain rfl := (Option.some.injEq _ _).mp h
        simp only [structZeroB, Bool.and_eq_true, decide_eq_true_eq] at hn
        obtain ⟨hM, hC⟩ := hn
        subst hM hC
        simp only [structZeroB, decide_eq_true_eq]
        intro h0
        have hm0 : m = 0 := by linarith [h0]
        subst hm0
        rw [comUpd_zero_zero, insCom_zero_mass]
    | leaf M C mid s pid =>
        cases h1 : Node.insert f (mkChildren mid s (branch_index C mid)) pid C M with
        | none => simp only [insert_leaf, h1] at h; exact Option.noConfusion h
        | some c1 =>
          have hc1 : structZeroB c1 = true :=
            ih _ pid C M c1 (mkChildren_structZero _ _ _) h1
          cases h2 : Node.insert f
              (updChild (mkChildren mid s) (branch_index C mid) c1 (branch_index p mid))
              id p m with
          | none => simp only [insert_leaf, h1, h2] at h; exact Option.noConfusion h
          | some c2 =>
            have hch : structZeroB
                (updChild (mkChildren mid s) (branch_index C mid) c1
                  (branch_index p mid)) = true := by
              by_cases hb : branch_index p mid = branch_index C mid
              · rw [hb, updChild_same]; exact hc1
              · rw [updChild_other _ _ _ _ hb]; exact mkChildren_structZero _ _ _
            have hc2 : structZeroB c2 = true := ih _ id p m c2 hch h2
            simp only [insert_leaf, h1, h2, Option.some.injEq] at h
            subst h
            rw [structZeroB_internal_iff]
            intro j
            by_cases hj2 : j = branch_index p mid
            · rw [hj2, updChild_same]; exact hc2
            · rw [updChild_other _ _ _ _ hj2]
              by_cases hj1 : j = branch_index C mid
              · rw [hj1, updChild_same]; exact hc1
              · rw [updChild_other _ _ _ _ hj1]; exact mkChildren_structZero _ _ _
    | internal M C mid s ch =>
        rw [structZeroB_internal_iff] at hn
        cases h1 : Node.insert f (ch (branch_index p mid)) id p m with
        | none => simp only [insert_internal, h1] at h; exact Option.noConfusion h
        | some c1 =>
          have hc1 : structZeroB c1 = true := ih _ id p m c1 (hn _) h1
          simp only [insert_internal, h1, Option.some.injEq] at h
          subst h
          rw [structZeroB_internal_iff]
          intro j
          by_cases hj : j = branch_index p mid
          · rw [hj, updChild_same]; exact hc1
          · rw [updChild_other _ _ _ _ hj]; exact hn j

theorem insCom_self (C : V3) (M : ℚ) (h : M = 0 → C = 0) : insCom C M = C := by
  by_cases hM : M = 0
  · rw [hM, insCom_zero_mass, h hM]
  · exact insCom_of_ne C M hM

theorem leafData_internal_update (M : ℚ) (C mid : V3) (s : ℚ) (ch : Fin 8 → Node)
    (i : Fin 8) (c : Node) :
    (↑(Node.internal M C mid s (updChild ch i c)).leafData : Multiset (ℕ × V3 × ℚ))
        + ↑(ch i).leafData
      = ↑(Node.internal M C mid s ch).leafData + ↑c.leafData := by
  fin_cases i <;>
    simp only [Node.leafData, updChild, Fin.ext_iff,
      show ((0 : Fin 8) : ℕ) = 0 from rfl, show ((1 : Fin 8) : ℕ) = 1 from rfl,
      show ((2 : Fin 8) : ℕ) = 2 from rfl, show ((3 : Fin 8) : ℕ) = 3 from rfl,
      show ((4 : Fin 8) : ℕ) = 4 from rfl, show ((5 : Fin 8) : ℕ) = 5 from rfl,
      show ((6 : Fin 8) : ℕ) = 6 from rfl, show ((7 : Fin 8) : ℕ) = 7 from rfl,
      ← Multiset.coe_add] <;>
    abel

theorem leafData_internal_mk (M : ℚ) (C mid : V3) (s : ℚ) (s2 : ℚ) :
    (↑(Node.internal M C mid s2 (mkChildren mid s)).leafData : Multiset (ℕ × V3 × ℚ))
      = 0 := by
  simp [Node.leafData, mkChildren_leafData]

/--
Effect of one successful insertion on the stored bodies: exactly the
triple `(id, insCom p m, m)` is added to the subtree's leaf data (as а
multiset; the position recorded is `p` itself whenever `m ≠ 0`).
-/
theorem leafData_insert :
    ∀ (fuel : ℕ) (n : Node) (id : ℕ) (p : V3) (m : ℚ) (t : Node),
      structZeroB n = true → Node.insert fuel n id p m = some t →
      (↑t.leafData : Multiset (ℕ × V3 × ℚ)) = (id, insCom p m, m) ::ₘ ↑n.leafData := by
  intro fuel
  induction fuel with
  | zero => intro n id p m t hn h; exact Option.noConfusion h
  | succ f ih =>
    intro n id p m t hn h
    cases n with
    | empty M C mid s =>
        rw [insert_empty] at h
        obtain rfl := (Option.some.injEq _ _).mp h
        simp only [structZeroB, Bool.and_eq_true, decide_eq_true_eq] at hn
        obtain ⟨hM, hC⟩ := hn
        subst hM hC
        simp [Node.leafData, comUpd_zero_zero]
    | leaf M C mid s pid =>
        simp only [structZeroB, decide_eq_true_eq] at hn
        cases h1 : Node.insert f (mkChildren mid s (branch_index C mid)) pid C M with
        | none => simp only [insert_leaf, h1] at h; exact Option.noConfusion h
        | some c1 =>
          have hL1 : (↑c1.leafData : Multiset (ℕ × V3 × ℚ))
              = {(pid, C, M)} := by
            rw [ih _ pid C M c1 (mkChildren_structZero _ _ _) h1,
              mkChildren_leafData, insCom_self C M hn]
            rfl
          cases h2 : Node.insert f
              (updChild (mkChildren mid s) (branch_index C mid) c1 (branch_index p mid))
              id p m with
          | none => simp only [insert_leaf, h1, h2] at h; exact Option.noConfusion h
          | some c2 =>
            have hchz : structZeroB
                (updChild (mkChildren mid s) (branch_index C mid) c1
                  (branch_index p mid)) = true := by
              by_cases hb : branch_index p mid = branch_index C mid
              · rw [hb, updChild_same]
                exact structZero_insert _ _ _ _ _ _ (mkChildren_structZero _ _ _) h1
              · rw [updChild_other _ _ _ _ hb]; exact mkChildren_structZero _ _ _
            have hL2 : (↑c2.leafData : Multiset (ℕ × V3 × ℚ))
                = (id, insCom p m, m) ::ₘ
                  ↑((updChild (mkChildren mid s) (branch_index C mid) c1
                    (branch_index p mid)).leafData) :=
              ih _ id p m c2 hchz h2
            simp only [insert_leaf, h1, h2, Option.some.injEq] at h
            subst h
            have E1 := leafData_internal_update (M + m) (comUpd C M p m) mid s
              (updChild (mkChildren mid s) (branch_index C mid) c1)
              (branch_index p mid) c2
            have E2 := leafData_internal_update (M + m) (comUpd C M p m) mid s
              (mkChildren mid s) (branch_index C mid) c1
            rw [mkChildren_leafData, leafData_internal_mk] at E2
            have hch1 : (↑(Node.internal (M + m) (comUpd C M p m) mid s
                (updChild (mkChildren mid s) (branch_index C mid) c1)).leafData :
                  Multiset (ℕ × V3 × ℚ)) = {(pid, C, M)} := by
              have : (↑(Node.internal (M + m) (comUpd C M p m) mid s
                  (updChild (mkChildren mid s) (branch_index C mid) c1)).leafData :
                    Multiset (ℕ × V3 × ℚ)) + 0 = 0 + ↑c1.leafData := E2
              simpa [hL1] using this
            rw [hL2, hch1] at E1
            have goal1 : (↑(Node.internal (M + m) (comUpd C M p m) mid s
                (updChild (updChild (mkChildren mid s) (branch_index C mid) c1)
                  (branch_index p mid) c2)).leafData : Multiset (ℕ × V3 × ℚ))
                + ↑((updChild (mkChildren mid s) (branch_index C mid) c1
                    (branch_index p mid)).leafData)
                = ((id, insCom p m, m) ::ₘ {(pid, C, M)})
                  + ↑((updChild (mkChildren mid s) (branch_index C mid) c1
                    (branch_index p mid)).leafData) := by
              rw [E1]
              rw [← Multiset.singleton_add, ← Multiset.singleton_add]
              abel
            have := add_right_cancel goal1
            rw [this]
            simp [Node.leafData]
    | internal M C mid s ch =>
        rw [structZeroB_internal_iff] at hn
        cases h1 : Node.insert f (ch (branch_index p mid)) id p m with
        | none => simp only [insert_internal, h1] at h; exact Option.noConfusion h
        | some c1 =>
          have hL1 : (↑c1.leafData : Multiset (ℕ × V3 × ℚ))
              = (id, insCom p m, m) ::ₘ ↑((ch (branch_index p mid)).leafData) :=
            ih _ id p m c1 (hn _) h1
          simp only [insert_internal, h1, Option.some.injEq] at h
          subst h
          have E1 := leafData_internal_update (M + m) (comUpd C M p m) mid s ch
            (branch_index p mid) c1
          rw [hL1] at E1
          have goal1 : (↑(Node.internal (M + m) (comUpd C M p m) mid s
              (updChild ch (branch_index p mid) c1)).leafData : Multiset (ℕ × V3 × ℚ))
              + ↑((ch (branch_index p mid)).leafData)
              = ((id, insCom p m, m) ::ₘ
                  ↑(Node.internal (M + m) (comUpd C M p m) mid s ch).leafData)
                + ↑((ch (branch_index p mid)).leafData) := by
            rw [E1, ← Multiset.singleton_add]
            have hsplit : (↑(Node.internal (M + m) (comUpd C M p m) mid s ch).leafData :
                Multiset (ℕ × V3 × ℚ))
                = ↑(Node.internal M C mid s ch).leafData := by
              simp [Node.leafData]
            rw [hsplit, ← Multiset.singleton_add]
            abel
          exact add_right_cancel goal1

theorem sum_map_coe_eq {β : Type} [AddCommMonoid β] (f : ℕ × V3 × ℚ → β)
    {l1 l2 : List (ℕ × V3 × ℚ)} (h : (↑l1 : Multiset (ℕ × V3 × ℚ)) = ↑l2) :
    (l1.map f).sum = (l2.map f).sum := by
  have h2 := congrArg (fun s : Multiset (ℕ × V3 × ℚ) => (s.map f).sum) h
  simpa [Multiset.map_coe, Multiset.sum_coe] using h2

theorem massSum_cons (b : ℕ × V3 × ℚ) (l : List (ℕ × V3 × ℚ)) :
    massSum (b :: l) = b.2.2 + massSum l := by simp [massSum]

theorem wSum_cons (b : ℕ × V3 × ℚ) (l : List (ℕ × V3 × ℚ)) :
    wSum (b :: l) = b.2.2 • b.2.1 + wSum l := by simp [wSum]

theorem massSum_insert {fuel : ℕ} {n : Node} {id : ℕ} {p : V3} {m : ℚ} {t : Node}
    (hsz : structZeroB n = true) (h : Node.insert fuel n id p m = some t) :
    massSum t.leafData = m + massSum n.leafData := by
  have hld := leafData_insert fuel n id p m t hsz h
  rw [Multiset.cons_coe] at hld
  have := sum_map_coe_eq (fun b => b.2.2) hld
  simpa [massSum, massSum_cons] using this

theorem smul_insCom (p : V3) (m : ℚ) : m • insCom p m = m • p := by
  by_cases hm : m = 0
  · subst hm
    rw [insCom_zero_mass]
    ext <;> simp [V3.smul_def, V3.zero_def]
  · rw [insCom_of_ne p m hm]

theorem wSum_insert {fuel : ℕ} {n : Node} {id : ℕ} {p : V3} {m : ℚ} {t : Node}
    (hsz : structZeroB n = true) (h : Node.insert fuel n id p m = some t) :
    wSum t.leafData = m • p + wSum n.leafData := by
  have hld := leafData_insert fuel n id p m t hsz h
  rw [Multiset.cons_coe] at hld
  have := sum_map_coe_eq (fun b => b.2.2 • b.2.1) hld
  have h2 : wSum t.leafData = wSum ((id, insCom p m, m) :: n.leafData) := this
  rw [h2, wSum_cons]
  simp only [smul_insCom]

theorem mass_smul_com (n : Node) (hAgg : Agg n) (hmp : massPosB n = true) :
    n.mass • n.center_of_mass = wSum n.leafData := by
  cases n with
  | empty M C mid s =>
      simp only [massPosB, decide_eq_true_eq] at hmp
      subst hmp
      simp [Node.mass, Node.center_of_mass, Node.leafData, wSum]
      ext <;> simp [V3.smul_def, V3.zero_def]
  | leaf M C mid s pid =>
      simp [Node.mass, Node.center_of_mass, Node.leafData, wSum]
  | internal M C mid s ch =>
      rw [massPosB_internal_iff] at hmp
      obtain ⟨hAgg1, hAgg2⟩ := hAgg
      rw [hAgg2]
      have hM : (Node.internal M C mid s ch).mass ≠ 0 := by
        simp only [Node.mass]; exact ne_of_gt hmp.1
      rw [hAgg1] at hM ⊢
      unfold wAvg
      ext <;> simp [V3.smul_def, V3.divS] <;> rw [mul_div_cancel₀ _ hM]

theorem Agg_after {fuel : ℕ} {n : Node} {id : ℕ} {p : V3} {m : ℚ} {t : Node}
    (hsz : structZeroB n = true) (hmp : massPosB n = true) (hAgg : Agg n)
    (h : Node.insert fuel n id p m = some t) : Agg t := by
  obtain ⟨hmid, hs, hM, hC⟩ := insert_fields fuel n id p m t h
  constructor
  · rw [hM, massSum_insert hsz h, hAgg.1]
    ring
  · rw [hC]
    unfold wAvg
    rw [massSum_insert hsz h, wSum_insert hsz h, ← hAgg.1, ← mass_smul_com n hAgg hmp]
    unfold comUpd
    rw [add_comm (m • p) (n.mass • n.center_of_mass), add_comm m n.mass]

theorem AggAll_agg {n : Node} (h : AggAll n) : Agg n := by
  cases n with
  | empty M C mid s => exact h
  | leaf M C mid s pid => exact h
  | internal M C mid s ch => exact h.1

theorem AggAll_internal_iff (M : ℚ) (C mid : V3) (s : ℚ) (ch : Fin 8 → Node) :
    AggAll (.internal M C mid s ch)
      ↔ Agg (.internal M C mid s ch) ∧ ∀ j : Fin 8, AggAll (ch j) := by
  show (Agg _ ∧ AggAll (ch 0) ∧ AggAll (ch 1) ∧ AggAll (ch 2) ∧ AggAll (ch 3)
      ∧ AggAll (ch 4) ∧ AggAll (ch 5) ∧ AggAll (ch 6) ∧ AggAll (ch 7)) ↔ _
  constructor
  · intro h
    exact ⟨h.1, fun j => by fin_cases j <;> tauto⟩
  · intro ⟨hA, hj⟩
    exact ⟨hA, hj 0, hj 1, hj 2, hj 3, hj 4, hj 5, hj 6, hj 7⟩

theorem AggAll_mkChildren (mid : V3) (s : ℚ) (i : Fin 8) :
    AggAll (mkChildren mid s i) := by
  rw [mkChildren_shape]
  show Agg _
  constructor
  · rfl
  · show (0 : V3) = wAvg []
    ext <;> simp [wAvg, wSum, massSum, V3.divS, V3.zero_def]

theorem aggAll_insert :
    ∀ (fuel : ℕ) (n : Node) (id : ℕ) (p : V3) (m : ℚ) (t : Node), 0 < m →
      structZeroB n = true → massPosB n = true → AggAll n →
      Node.insert fuel n id p m = some t → AggAll t := by
  intro fuel
  induction fuel with
  | zero => intro n id p m t hm h1 h2 h3 h; exact Option.noConfusion h
  | succ f ih =>
    intro n id p m t hm hsz hmp hAgg h
    have hAggTop : Agg t := Agg_after hsz hmp (AggAll_agg hAgg) h
    cases n with
    | empty M C mid s =>
        rw [insert_empty] at h
        obtain rfl := (Option.some.injEq _ _).mp h
        exact hAggTop
    | leaf M C mid s pid =>
        simp only [massPosB, decide_eq_true_eq] at hmp
        cases h1 : Node.insert f (mkChildren mid s (branch_index C mid)) pid C M with
        | none => simp only [insert_leaf, h1] at h; exact Option.noConfusion h
        | some c1 =>
          have hc1A : AggAll c1 := ih _ pid C M c1 hmp (mkChildren_structZero _ _ _)
            (mkChildren_massPos _ _ _) (AggAll_mkChildren _ _ _) h1
          have hc1s : structZeroB c1 = true :=
            structZero_insert _ _ _ _ _ _ (mkChildren_structZero _ _ _) h1
          have hc1m : massPosB c1 = true :=
            massPos_insert _ _ _ _ _ _ hmp (mkChildren_massPos _ _ _) h1
          cases h2 : Node.insert f
              (updChild (mkChildren mid s) (branch_index C mid) c1 (branch_index p mid))
              id p m with
          | none => simp only [insert_leaf, h1, h2] at h; exact Option.noConfusion h
          | some c2 =>
            have hchA : AggAll (updChild (mkChildren mid s) (branch_index C mid) c1
                (branch_index p mid))
                ∧ structZeroB (updChild (mkChildren mid s) (branch_index C mid) c1
                  (branch_index p mid)) = true
                ∧ massPosB (updChild (mkChildren mid s) (branch_index C mid) c1
                  (branch_index p mid)) = true := by
              by_cases hb : branch_index p mid = branch_index C mid
              · rw [hb, updChild_same]; exact ⟨hc1A, hc1s, hc1m⟩
              · rw [updChild_other _ _ _ _ hb]
                exact ⟨AggAll_mkChildren _ _ _, mkChildren_structZero _ _ _,
                  mkChildren_massPos _ _ _⟩
            have hc2A : AggAll c2 := ih _ id p m c2 hm hchA.2.1 hchA.2.2 hchA.1 h2
            simp only [insert_leaf, h1, h2, Option.some.injEq] at h
            subst h
            rw [AggAll_internal_iff]
            refine ⟨hAggTop, ?_⟩
            intro j
            by_cases hj2 : j = branch_index p mid
            · rw [hj2, updChild_same]; exact hc2A
            · rw [updChild_other _ _ _ _ hj2]
              by_cases hj1 : j = branch_index C mid
              · rw [hj1, updChild_same]; exact hc1A
              · rw [updChild_other _ _ _ _ hj1]; exact AggAll_mkChildren _ _ _
    | internal M C mid s ch =>
        rw [structZeroB_internal_iff] at hsz
        rw [massPosB_internal_iff] at hmp
        rw [AggAll_internal_iff] at hAgg
        cases h1 : Node.insert f (ch (branch_index p mid)) id p m with
        | none => simp only [insert_internal, h1] at h; exact Option.noConfusion h
        | some c1 =>
          have hc1A : AggAll c1 :=
            ih _ id p m c1 hm (hsz _) (hmp.2 _) (hAgg.2 _) h1
          simp only [insert_internal, h1, Option.some.injEq] at h
          subst h
          rw [AggAll_internal_iff]
          refine ⟨hAggTop, ?_⟩
          intro j
          by_cases hj : j = branch_index p mid
          · rw [hj, updChild_same]; exact hc1A
          · rw [updChild_other _ _ _ _ hj]; exact hAgg.2 j

theorem structZero_new (mid : V3) (s : ℚ) : structZeroB (Node.new mid s) = true := by
  simp [Node.new, structZeroB]

theorem massPos_new (mid : V3) (s : ℚ) : massPosB (Node.new mid s) = true := by
  simp [Node.new, massPosB]

theorem AggAll_new (mid : V3) (s : ℚ) : AggAll (Node.new mid s) := by
  show Agg _
  constructor
  · rfl
  · show (0 : V3) = wAvg []
    ext <;> simp [wAvg, wSum, massSum, V3.divS, V3.zero_def]

theorem leafData_new (mid : V3) (s : ℚ) : (Node.new mid s).leafData = [] := rfl

/--
Invariants of a whole build: positive-mass insertions into an invariant
root keep the zero bookkeeping, mass positivity and per-node aggregation
correctness, and the final leaf data is the multiset of inserted bodies
(as `entryOf` triples) plus whatever the tree held before.
-/
theorem buildTree_props :
    ∀ (bodies : List (ℕ × V3 × ℚ)) (fuel : ℕ) (t T : BarnesHutTree),
      (∀ b ∈ bodies, 0 < b.2.2) →
      structZeroB t.root = true → massPosB t.root = true → AggAll t.root →
      buildTree fuel t bodies = some T →
      structZeroB T.root = true ∧ massPosB T.root = true ∧ AggAll T.root
        ∧ (↑T.root.leafData : Multiset (ℕ × V3 × ℚ))
            = ↑(bodies.map entryOf) + ↑t.root.leafData := by
  intro bodies
  induction bodies with
  | nil =>
      intro fuel t T hpos h1 h2 h3 h
      simp only [buildTree, Option.some.injEq] at h
      subst h
      simpa [h1, h2, h3] using rfl
  | cons b rest ih =>
      intro fuel t T hpos h1 h2 h3 h
      simp only [buildTree] at h
      cases hb : BarnesHutTree.insert fuel t b.1 b.2.1 b.2.2 with
      | none => rw [hb] at h; exact Option.noConfusion h
      | some t1 =>
        rw [hb] at h
        unfold BarnesHutTree.insert at hb
        cases hr : Node.insert fuel t.root b.1 b.2.1 b.2.2 with
        | none => rw [hr] at hb; exact Option.noConfusion hb
        | some r =>
          rw [hr] at hb
          have hb2 : (⟨r, t.count + 1⟩ : BarnesHutTree) = t1 := by
            simpa using hb
          subst hb2
          have hbpos : 0 < b.2.2 := hpos b (List.mem_cons_self b rest)
          have hz1 : structZeroB r = true := structZero_insert _ _ _ _ _ _ h1 hr
          have hm1 : massPosB r = true := massPos_insert _ _ _ _ _ _ hbpos h2 hr
          have hA1 : AggAll r := aggAll_insert _ _ _ _ _ _ hbpos h1 h2 h3 hr
          have hld1 : (↑r.leafData : Multiset (ℕ × V3 × ℚ))
              = entryOf b ::ₘ ↑t.root.leafData := leafData_insert _ _ _ _ _ _ h1 hr
          obtain ⟨hz2, hm2, hA2, hld2⟩ :=
            ih fuel ⟨r, t.count + 1⟩ T (fun b2 hb2 => hpos b2 (List.mem_cons_of_mem b hb2))
              hz1 hm1 hA1 h
          refine ⟨hz2, hm2, hA2, ?_⟩
          rw [hld2, hld1, List.map_cons, ← Multiset.cons_coe]
          rw [← Multiset.singleton_add, ← Multiset.singleton_add]
          abel

theorem massSum_entryOf (l : List (ℕ × V3 × ℚ)) :
    massSum (l.map entryOf) = massSum l := by
  simp [massSum, List.map_map]
  rfl

theorem wSum_entryOf (l : List (ℕ × V3 × ℚ)) :
    wSum (l.map entryOf) = wSum l := by
  induction l with
  | nil => rfl
  | cons b rest ih => simp [wSum_cons, entryOf, ih, smul_insCom]

/--
Claim C1, amended (canceling mass totals excluded: every inserted mass is
strictly positive): after any sequence of insertions every node's `mass`
is the sum of the masses of the bodies in its subtree and its
`center_of_mass` is their mass-weighted average (`AggAll`); in particular
the root's `mass` is the sum of all inserted masses and the root's
`center_of_mass` is the mass-weighted average of all inserted positions,
regardless of insertion order.
-/
theorem claim_c1_aggregates_amended (fuel : ℕ) (min_bound max_bound : V3)
    (bodies : List (ℕ × V3 × ℚ)) (hpos : ∀ b ∈ bodies, 0 < b.2.2)
    (T : BarnesHutTree)
    (h : buildTree fuel (BarnesHutTree.new min_bound max_bound) bodies = some T) :
    AggAll T.root ∧ T.root.mass = massSum bodies
      ∧ T.root.center_of_mass = wAvg bodies := by
  obtain ⟨hz, hm, hA, hld⟩ := buildTree_props bodies fuel _ T hpos
    (structZero_new _ _) (massPos_new _ _) (AggAll_new _ _) h
  rw [show (BarnesHutTree.new min_bound max_bound).root.leafData = [] from rfl] at hld
  have hld2 : (↑T.root.leafData : Multiset (ℕ × V3 × ℚ)) = ↑(bodies.map entryOf) := by
    rw [hld, Multiset.coe_nil, add_zero]
  have hmass : massSum T.root.leafData = massSum bodies := by
    have := sum_map_coe_eq (fun b => b.2.2) hld2
    rw [show massSum T.root.leafData = (T.root.leafData.map fun b => b.2.2).sum from rfl,
      this]
    exact massSum_entryOf bodies
  have hwsum : wSum T.root.leafData = wSum bodies := by
    have := sum_map_coe_eq (fun b => b.2.2 • b.2.1) hld2
    rw [show wSum T.root.leafData = (T.root.leafData.map fun b => b.2.2 • b.2.1).sum
        from rfl, this]
    exact wSum_entryOf bodies
  have hAgg := AggAll_agg hA
  refine ⟨hA, ?_, ?_⟩
  · rw [hAgg.1, hmass]
  · rw [hAgg.2]
    unfold wAvg
    rw [hmass, hwsum]

/-- Witness for (amended) C1: a one-body build. -/
theorem claim_c1_aggregates_amended_witness :
    (buildTree 1 (BarnesHutTree.new ⟨0,0,0⟩ ⟨2,2,2⟩)
        [((0 : ℕ), (⟨1,2,3⟩ : V3), (2 : ℚ))]).map (fun T => T.root.mass)
      = some (massSum [((0 : ℕ), (⟨1,2,3⟩ : V3), (2 : ℚ))]) := by
  have h : (buildTree 1 (BarnesHutTree.new ⟨0,0,0⟩ ⟨2,2,2⟩)
      [((0 : ℕ), (⟨1,2,3⟩ : V3), (2 : ℚ))]).isSome = true := rfl
  have h2 := claim_c1_aggregates_amended 1 ⟨0,0,0⟩ ⟨2,2,2⟩
    [((0 : ℕ), (⟨1,2,3⟩ : V3), (2 : ℚ))] (by decide)
    ((buildTree 1 (BarnesHutTree.new ⟨0,0,0⟩ ⟨2,2,2⟩)
      [((0 : ℕ), (⟨1,2,3⟩ : V3), (2 : ℚ))]).get h)
    (Option.some_get h).symm
  rw [← Option.some_get h]
  simp only [Option.map_some', Option.some.injEq]
  exact h2.2.1

/--
Counterexample to C1 as stated (arbitrary masses): with masses `1`, `-1`,
`1` the running total passes through zero, the zero-divisor update loses
the accumulated weighted sum, and the final root `center_of_mass`
`(0,1,0)` differs from the true mass-weighted average `(2,1,0)` of the
three inserted bodies.  (In `f32` the same insertion sequence produces a
non-finite centre; in the exact model the division-by-zero convention
`x/0 = 0` makes the discrepancy finite but equally real.)
-/
theorem claim_c1_counterexample :
    (buildTree 5 (BarnesHutTree.new ⟨-1,-1,-1⟩ ⟨1,1,1⟩)
        [(0, ⟨1,0,0⟩, 1), (1, ⟨-1,0,0⟩, -1), (2, ⟨0,1,0⟩, 1)]).map
      (fun T => T.root.center_of_mass) = some ⟨0,1,0⟩
    ∧ wAvg [(0, ⟨1,0,0⟩, 1), (1, ⟨-1,0,0⟩, -1), (2, ⟨0,1,0⟩, 1)] = ⟨2,1,0⟩
    ∧ (⟨0,1,0⟩ : V3) ≠ ⟨2,1,0⟩ := by
  refine ⟨?_, ?_, ?_⟩
  · norm_num [buildTree, BarnesHutTree.insert, BarnesHutTree.new, Node.new,
      Node.insert, branch_index, mkChildren, comUpd, updChild, V3.sub_def,
      V3.add_def, V3.smul_def, V3.subS, V3.divS, V3.max_element, V3.zero_def,
      Node.center_of_mass, Fin.ext_iff]
  · show wAvg _ = _
    unfold wAvg wSum massSum
    ext <;> simp [V3.smul_def, V3.add_def, V3.divS, V3.zero_def] <;> norm_num
  · intro hc
    have := congrArg V3.x hc
    norm_num at this

theorem exactSum_append (qid : ℕ) (p : V3) (k : ℝ) (e : ℤ)
    (l1 l2 : List (ℕ × V3 × ℚ)) :
    exactSum qid p k e (l1 ++ l2) = exactSum qid p k e l1 + exactSum qid p k e l2 := by
  simp [exactSum]

theorem not_accept_of_nonpos (s : ℚ) (d θ : ℝ) (hs : 0 ≤ s) (hd : 0 ≤ d)
    (hθ : θ ≤ 0) : ¬ accept s d θ := by
  unfold accept
  rintro (⟨hd0, hneg⟩ | ⟨hdne, hlt⟩)
  · have : (0 : ℝ) ≤ (s : ℝ) := by exact_mod_cast hs
    linarith
  · have h1 : (0 : ℝ) ≤ (s : ℝ) := by exact_mod_cast hs
    have h2 : 0 ≤ (s : ℝ) / d := div_nonneg h1 hd
    linarith

/--
With `theta ≤ 0` the acceptance test never fires, so the traversal fully
expands to the leaves and `force` is the exact sum of pairwise
contributions over the stored bodies.
-/
theorem force_expand (qid : ℕ) (p : V3) (k : ℝ) (e : ℤ) (θ : ℝ) (hθ : θ ≤ 0) :
    ∀ n : Node, sizeNonnegB n = true →
      n.force qid p k e θ = exactSum qid p k e n.leafData := by
  intro n
  induction n with
  | empty M C mid s => intro h; simp [Node.force, Node.leafData, exactSum]
  | leaf M C mid s i =>
      intro h
      by_cases hid : qid = i
      · subst hid
        simp [Node.force, Node.leafData, exactSum, contrib]
      · simp [Node.force, Node.leafData, exactSum, contrib, hid, Ne.symm hid]
  | internal M C mid s ch ih =>
      intro h
      rw [sizeNonnegB_internal_iff] at h
      have hacc : ¬ accept s (len (C - p)) θ :=
        not_accept_of_nonpos s _ θ h.1 (len_nonneg _) hθ
      simp only [Node.force, if_neg hacc, Node.leafData, exactSum_append]
      rw [ih 0 (h.2 0), ih 1 (h.2 1), ih 2 (h.2 2), ih 3 (h.2 3), ih 4 (h.2 4),
        ih 5 (h.2 5), ih 6 (h.2 6), ih 7 (h.2 7)]

theorem force_insCom (qp p : V3) (m : ℚ) (k : ℝ) (e : ℤ) :
    force qp (insCom p m) m k e = force qp p m k e := by
  by_cases hm : m ≤ 0
  · simp [force, hm]
  · rw [insCom_of_ne p m (by intro h0; exact hm (le_of_eq h0))]

theorem exactSum_entryOf (qid : ℕ) (p : V3) (k : ℝ) (e : ℤ)
    (l : List (ℕ × V3 × ℚ)) :
    exactSum qid p k e (l.map entryOf) = exactSum qid p k e l := by
  induction l with
  | nil => rfl
  | cons b rest ih =>
      simp only [List.map_cons, exactSum, List.map, List.sum_cons] at ih ⊢
      rw [ih]
      congr 1
      unfold contrib entryOf
      by_cases hb : b.1 ≠ qid <;> simp [hb, force_insCom]

theorem sizeNonneg_new_box (a b : V3) (h : vleB a b = true) :
    sizeNonnegB (BarnesHutTree.new a b).root = true := by
  simp only [vleB, decide_eq_true_eq] at h
  simp only [BarnesHutTree.new, Node.new, sizeNonnegB, V3.max_element, V3.sub_def,
    decide_eq_true_eq]
  exact le_max_iff.mpr (Or.inl (by linarith [h.1]))

theorem buildTree_props2 :
    ∀ (bodies : List (ℕ × V3 × ℚ)) (fuel : ℕ) (t T : BarnesHutTree),
      structZeroB t.root = true → sizeNonnegB t.root = true →
      buildTree fuel t bodies = some T →
      structZeroB T.root = true ∧ sizeNonnegB T.root = true
        ∧ (↑T.root.leafData : Multiset (ℕ × V3 × ℚ))
            = ↑(bodies.map entryOf) + ↑t.root.leafData := by
  intro bodies
  induction bodies with
  | nil =>
      intro fuel t T hz hs h
      simp only [buildTree, Option.some.injEq] at h
      subst h
      simp [hz, hs]
  | cons b rest ih =>
      intro fuel t T hz hs h
      simp only [buildTree] at h
      cases hb : BarnesHutTree.insert fuel t b.1 b.2.1 b.2.2 with
      | none => rw [hb] at h; exact Option.noConfusion h
      | some t1 =>
        rw [hb] at h
        unfold BarnesHutTree.insert at hb
        cases hr : Node.insert fuel t.root b.1 b.2.1 b.2.2 with
        | none => rw [hr] at hb; exact Option.noConfusion hb
        | some r =>
          rw [hr] at hb
          have hb2 : (⟨r, t.count + 1⟩ : BarnesHutTree) = t1 := by
            simpa using hb
          subst hb2
          have hz1 : structZeroB r = true := structZero_insert _ _ _ _ _ _ hz hr
          have hs1 : sizeNonnegB r = true := sizeNonneg_insert _ _ _ _ _ _ hs hr
          have hld1 : (↑r.leafData : Multiset (ℕ × V3 × ℚ))
              = entryOf b ::ₘ ↑t.root.leafData := leafData_insert _ _ _ _ _ _ hz hr
          obtain ⟨hz2, hs2, hld2⟩ := ih fuel ⟨r, t.count + 1⟩ T hz1 hs1 h
          refine ⟨hz2, hs2, ?_⟩
          rw [hld2, hld1, List.map_cons, ← Multiset.cons_coe]
          rw [← Multiset.singleton_add, ← Multiset.singleton_add]
          abel

/--
Claim C2: for a tree built by insertions (whatever masses and ids, over a
valid bounding box), with `theta ≤ 0` — small enough that `size/d < theta`
never fires — `force` equals the exact pairwise sum over every inserted
body whose id differs from the query id, with each body's exact position
and mass.
-/
theorem claim_c2_exact_regime (fuel : ℕ) (min_bound max_bound : V3)
    (bodies : List (ℕ × V3 × ℚ)) (qid : ℕ) (qp : V3) (k : ℝ) (e : ℤ) (θ : ℝ)
    (hθ : θ ≤ 0) (hbox : vleB min_bound max_bound = true) :
    (buildTree fuel (BarnesHutTree.new min_bound max_bound) bodies).map
        (fun T => T.force qid qp k e θ)
      = (buildTree fuel (BarnesHutTree.new min_bound max_bound) bodies).map
        (fun _ => exactSum qid qp k e bodies) := by
  cases h : buildTree fuel (BarnesHutTree.new min_bound max_bound) bodies with
  | none => rfl
  | some T =>
    obtain ⟨hz, hs, hld⟩ := buildTree_props2 bodies fuel _ T
      (structZero_new _ _) (sizeNonneg_new_box _ _ hbox) h
    rw [show (BarnesHutTree.new min_bound max_bound).root.leafData = [] from rfl,
      Multiset.coe_nil, add_zero] at hld
    simp only [Option.map_some', Option.some.injEq]
    rw [show T.force qid qp k e θ = T.root.force qid qp k e θ from rfl]
    rw [force_expand qid qp k e θ hθ T.root hs]
    rw [show exactSum qid qp k e T.root.leafData
        = (T.root.leafData.map (contrib qid qp k e)).sum from rfl]
    rw [sum_map_coe_eq (contrib qid qp k e) hld]
    exact exactSum_entryOf qid qp k e bodies

/-- Witness for C2: box `[0,2]³`, two bodies, `theta = 0`. -/
theorem claim_c2_exact_regime_witness :
    (buildTree 5 (BarnesHutTree.new ⟨0,0,0⟩ ⟨2,2,2⟩)
        [(0, ⟨1,0,0⟩, 1), (1, ⟨0,1,0⟩, 1)]).map
        (fun T => T.force 0 ⟨1,0,0⟩ 1 (-2) 0)
      = (buildTree 5 (BarnesHutTree.new ⟨0,0,0⟩ ⟨2,2,2⟩)
        [(0, ⟨1,0,0⟩, 1), (1, ⟨0,1,0⟩, 1)]).map
        (fun _ => exactSum 0 ⟨1,0,0⟩ 1 (-2) [(0, ⟨1,0,0⟩, 1), (1, ⟨0,1,0⟩, 1)]) :=
  claim_c2_exact_regime 5 ⟨0,0,0⟩ ⟨2,2,2⟩ [(0, ⟨1,0,0⟩, 1), (1, ⟨0,1,0⟩, 1)]
    0 ⟨1,0,0⟩ 1 (-2) 0 (le_refl 0) (by decide)

/--
Generic divergence schema: if an invariant on the current cell forces the
new position `p` and the resident body position `q` to select the same
octant at every level, inserting `p` below a leaf holding `q` (nonzero
mass) runs out of any amount of fuel.
-/
theorem insert_diverges_aux (p q : V3) (id : ℕ) (m : ℚ) (I : V3 → ℚ → Prop)
    (hI : ∀ mid s, I mid s →
      branch_index p mid = branch_index q mid
        ∧ I (mkChildren mid s (branch_index p mid)).midpoint (s / 2)) :
    ∀ (fuel : ℕ) (M : ℚ) (mid : V3) (s : ℚ) (pid : ℕ), M ≠ 0 → I mid s →
      Node.insert fuel (.leaf M q mid s pid) id p m = none := by
  intro fuel
  induction fuel with
  | zero => intros; rfl
  | succ f ih =>
    intro M mid s pid hM hI0
    obtain ⟨hbr, hI1⟩ := hI mid s hI0
    rw [insert_leaf]
    cases h1 : Node.insert f (mkChildren mid s (branch_index q mid)) pid q M with
    | none => rfl
    | some c1 =>
      cases f with
      | zero => exact Option.noConfusion h1
      | succ f2 =>
        rw [mkChildren_shape mid s (branch_index q mid), insert_empty] at h1
        have hc1 : c1 = Node.leaf (0 + M) (comUpd 0 0 q M)
            (mkChildren mid s (branch_index q mid)).midpoint (s / 2) pid :=
          ((Option.some.injEq _ _).mp h1).symm
        have hc1' : c1 = Node.leaf M q
            (mkChildren mid s (branch_index q mid)).midpoint (s / 2) pid := by
          rw [hc1, zero_add, comUpd_zero_zero, insCom_of_ne q M hM]
        have hnone : Node.insert (f2 + 1)
            (updChild (mkChildren mid s) (branch_index q mid) c1 (branch_index p mid))
            id p m = none := by
          rw [hbr, updChild_same, hc1', ← hbr]
          exact ih M _ _ pid hM hI1
        simp only [hnone]

/--
Splitting chain termination: a leaf holding `q` and a new body at `p ≠ q`,
both inside the cell, separate into distinct octants after at most `k`
halvings once `s < dInf p q * 2^k`, so the insertion succeeds with enough
fuel.
-/
theorem split_chain (p q : V3) (id : ℕ) (m : ℚ) (hpq : p ≠ q) :
    ∀ (k : ℕ) (mid : V3) (s : ℚ) (M : ℚ) (pid : ℕ), M ≠ 0 → 0 ≤ s →
      inCell p mid s = true → inCell q mid s = true → s < dInf p q * 2 ^ k →
      ∃ fuel t, Node.insert fuel (.leaf M q mid s pid) id p m = some t := by
  intro k
  induction k with
  | zero =>
      intro mid s M pid hM hs hp hq hlt
      exfalso
      have h1 : dInf p q ≤ s := dInf_le_of_inCell p q mid s hp hq
      rw [pow_zero, mul_one] at hlt
      linarith
  | succ k ih =>
      intro mid s M pid hM hs hp hq hlt
      by_cases hbr : branch_index p mid = branch_index q mid
      · have hp' : inCell p (mkChildren mid s (branch_index p mid)).midpoint
            (s / 2) = true := cell_step p mid s hp
        have hq' : inCell q (mkChildren mid s (branch_index p mid)).midpoint
            (s / 2) = true := by
          rw [hbr]; exact cell_step q mid s hq
        have hs' : 0 ≤ s / 2 := by linarith
        have hlt' : s / 2 < dInf p q * 2 ^ k := by
          have h2 : (2 : ℚ) ^ (k + 1) = 2 * 2 ^ k := by ring
          rw [h2] at hlt
          linarith
        obtain ⟨fuel2, t2, h2⟩ := ih (mkChildren mid s (branch_index p mid)).midpoint
          (s / 2) M pid hM hs' hp' hq' hlt'
        cases fuel2 with
        | zero => exact Option.noConfusion h2
        | succ f2 =>
          have e1 : Node.insert (f2 + 1) (mkChildren mid s (branch_index q mid))
              pid q M = some (Node.leaf (0 + M) (comUpd 0 0 q M)
                (mkChildren mid s (branch_index q mid)).midpoint (s / 2) pid) := by
            rw [mkChildren_shape mid s (branch_index q mid), insert_empty]
            rfl
          have e2 : Node.insert (f2 + 1)
              (updChild (mkChildren mid s) (branch_index q mid)
                (Node.leaf (0 + M) (comUpd 0 0 q M)
                  (mkChildren mid s (branch_index q mid)).midpoint (s / 2) pid)
                (branch_index p mid)) id p m = some t2 := by
            rw [hbr, updChild_same, zero_add, comUpd_zero_zero, insCom_of_ne q M hM,
              ← hbr]
            exact h2
          have hfin : ∃ t, Node.insert (f2 + 1 + 1) (.leaf M q mid s pid) id p m
              = some t := by
            rw [insert_leaf]
            simp only [e1, e2]
            exact ⟨_, rfl⟩
          obtain ⟨t3, ht3⟩ := hfin
          exact ⟨f2 + 1 + 1, t3, ht3⟩
      · have e1 : Node.insert 1 (mkChildren mid s (branch_index q mid)) pid q M
            = some (Node.leaf (0 + M) (comUpd 0 0 q M)
              (mkChildren mid s (branch_index q mid)).midpoint (s / 2) pid) := by
          rw [mkChildren_shape mid s (branch_index q mid), insert_empty]
          rfl
        have e2 : Node.insert 1
            (updChild (mkChildren mid s) (branch_index q mid)
              (Node.leaf (0 + M) (comUpd 0 0 q M)
                (mkChildren mid s (branch_index q mid)).midpoint (s / 2) pid)
              (branch_index p mid)) id p m
            = some (Node.leaf (0 + m) (comUpd 0 0 p m)
              (mkChildren mid s (branch_index p mid)).midpoint (s / 2) id) := by
          rw [updChild_other _ _ _ _ hbr,
            mkChildren_shape mid s (branch_index p mid), insert_empty]
          rfl
        have hfin : ∃ t, Node.insert (1 + 1) (.leaf M q mid s pid) id p m
            = some t := by
          rw [insert_leaf]
          simp only [e1, e2]
          exact ⟨_, rfl⟩
        obtain ⟨t3, ht3⟩ := hfin
        exact ⟨1 + 1, t3, ht3⟩

theorem leafComs_child_mem (M : ℚ) (C mid : V3) (s : ℚ) (ch : Fin 8 → Node)
    (j : Fin 8) (x : V3) (hx : x ∈ (ch j).leafComs) :
    x ∈ (Node.internal M C mid s ch).leafComs := by
  simp only [Node.leafComs, List.mem_map] at hx
  obtain ⟨a, ha, hax⟩ := hx
  simp only [Node.leafComs, List.mem_map]
  refine ⟨a, ?_, hax⟩
  fin_cases j <;>
    simp only [Node.leafData, List.mem_append] <;>
    tauto

/--
Termination of insertion on a well-formed tree when the new position lies
inside the root cell and differs from every stored body position.
-/
theorem insert_terminates (id : ℕ) (p : V3) (m : ℚ) :
    ∀ n : Node, wfB n = true → inCell p n.midpoint n.size = true →
      p ∉ n.leafComs → ∃ fuel t, Node.insert fuel n id p m = some t := by
  intro n
  induction n with
  | empty M C mid s =>
      intro _ _ _
      exact ⟨1, _, insert_empty 0 M C mid s id p m⟩
  | leaf M C mid s pid =>
      intro hwf hp hmem
      simp only [wfB, Bool.and_eq_true, decide_eq_true_eq] at hwf
      obtain ⟨⟨hC, hM⟩, hs⟩ := hwf
      simp only [Node.midpoint, Node.size] at hp
      have hpC : p ≠ C := by
        intro hc
        apply hmem
        subst hc
        simp [Node.leafComs, Node.leafData]
      have hδ : 0 < dInf p C := dInf_pos p C hpC
      obtain ⟨k, hk⟩ := pow_unbounded_of_one_lt (s / dInf p C)
        (by norm_num : (1 : ℚ) < 2)
      have hsk : s < dInf p C * 2 ^ k := by
        rw [div_lt_iff hδ] at hk
        linarith
      exact split_chain p C id m hpC k mid s M pid hM hs hp hC hsk
  | internal M C mid s ch ih =>
      intro hwf hp hmem
      rw [wfB_internal_iff] at hwf
      simp only [Node.midpoint, Node.size] at hp
      have hg := (hwf.2 (branch_index p mid)).1
      simp only [childGeom, Bool.and_eq_true, decide_eq_true_eq] at hg
      have hp' : inCell p (ch (branch_index p mid)).midpoint
          (ch (branch_index p mid)).size = true := by
        rw [hg.1, hg.2]
        exact cell_step p mid s hp
      have hmem' : p ∉ (ch (branch_index p mid)).leafComs := by
        intro hmemi
        exact hmem (leafComs_child_mem M C mid s ch (branch_index p mid) p hmemi)
      obtain ⟨fuel, t, hf⟩ := ih (branch_index p mid)
        (hwf.2 (branch_index p mid)).2 hp' hmem'
      have hfin : ∃ t2, Node.insert (fuel + 1) (.internal M C mid s ch) id p m
          = some t2 := by
        rw [insert_internal]
        simp only [hf]
        exact ⟨_, rfl⟩
      obtain ⟨t2, ht2⟩ := hfin
      exact ⟨fuel + 1, t2, ht2⟩

theorem c8wit_wf : wfB (Node.leaf 1 ⟨0,0,0⟩ ⟨0,0,0⟩ 2 0) = true := by
  simp only [wfB, inCell, Bool.and_eq_true, decide_eq_true_eq]
  norm_num

theorem c8wit_incell :
    inCell ⟨1,0,0⟩ (Node.leaf 1 ⟨0,0,0⟩ ⟨0,0,0⟩ 2 0).midpoint
      (Node.leaf 1 ⟨0,0,0⟩ ⟨0,0,0⟩ 2 0).size = true := by
  simp only [Node.midpoint, Node.size, inCell, decide_eq_true_eq]
  norm_num

theorem c8wit_notmem :
    (⟨1,0,0⟩ : V3) ∉ (Node.leaf 1 ⟨0,0,0⟩ ⟨0,0,0⟩ 2 0).leafComs := by
  simp only [Node.leafComs, Node.leafData, List.map_cons, List.map_nil,
    List.mem_singleton]
  intro hc
  have := congrArg V3.x hc
  norm_num at this

/--
Claim C8, amended: inserting a body at a position numerically identical to
a body already in the tree diverges (witnessed concretely: a leaf holding
mass 1 at the origin, re-inserting the origin runs out of any fuel), and
insertion terminates on every well-formed tree (leaves store their bodies
inside their cells with nonzero mass, children carry the split geometry)
for every new position that lies inside the node's cell and differs from
every stored body position.  (The original unconditional converse is
false: distinct positions outside the root cell can recurse forever —
see the counterexample.)
-/
theorem claim_c8_termination_amended :
    Diverges (Node.leaf 1 ⟨0,0,0⟩ ⟨0,0,0⟩ 2 0) 1 ⟨0,0,0⟩ 1
      ∧ ∀ (n : Node) (id : ℕ) (p : V3) (m : ℚ), wfB n = true →
          inCell p n.midpoint n.size = true → p ∉ n.leafComs →
          ∃ fuel t, Node.insert fuel n id p m = some t := by
  constructor
  · intro fuel
    exact insert_diverges_aux ⟨0,0,0⟩ ⟨0,0,0⟩ 1 1 (fun _ _ => True)
      (fun mid s _ => ⟨rfl, trivial⟩) fuel 1 ⟨0,0,0⟩ 2 0 one_ne_zero trivial
  · intro n id p m hwf hc hm
    exact insert_terminates id p m n hwf hc hm

/-- Witness for (amended) C8: a well-formed one-leaf tree and a distinct
in-cell position; insertion succeeds with some fuel. -/
theorem claim_c8_termination_amended_witness :
    ∃ fuel t, Node.insert fuel (Node.leaf 1 ⟨0,0,0⟩ ⟨0,0,0⟩ 2 0) 1 ⟨1,0,0⟩ 1
      = some t :=
  claim_c8_termination_amended.2 (Node.leaf 1 ⟨0,0,0⟩ ⟨0,0,0⟩ 2 0) 1 ⟨1,0,0⟩ 1
    c8wit_wf c8wit_incell c8wit_notmem

/--
Counterexample to C8 as stated: its converse half claims insert terminates
for *every* body whose position differs from all previously inserted
positions.  Body 0 sits at `(2,0,0)` (inserted into the tree over
`[-1,1]³` — out of bounds, which the code accepts); inserting the distinct
position `(3,0,0)` loops forever: both positions select the all-positive
octant at every depth, since every cell midpoint stays left of `x = 2`.
-/
theorem claim_c8_counterexample :
    (BarnesHutTree.insert 1 (BarnesHutTree.new ⟨-1,-1,-1⟩ ⟨1,1,1⟩) 0 ⟨2,0,0⟩ 1).map
        (fun t => t.root) = some (Node.leaf 1 ⟨2,0,0⟩ ⟨0,0,0⟩ 2 0)
      ∧ (⟨3,0,0⟩ : V3) ≠ ⟨2,0,0⟩
      ∧ Diverges (Node.leaf 1 ⟨2,0,0⟩ ⟨0,0,0⟩ 2 0) 1 ⟨3,0,0⟩ 1 := by
  refine ⟨?_, ?_, ?_⟩
  · norm_num [BarnesHutTree.insert, BarnesHutTree.new, Node.new, Node.insert,
      comUpd, V3.add_def, V3.sub_def, V3.divS, V3.smul_def, V3.max_element,
      V3.zero_def]
  · intro hc
    have := congrArg V3.x hc
    norm_num at this
  · intro fuel
    apply insert_diverges_aux ⟨3,0,0⟩ ⟨2,0,0⟩ 1 1
      (fun mid s => 0 ≤ s ∧ mid.x + s / 2 ≤ 2) ?_ fuel 1 ⟨0,0,0⟩ 2 0 one_ne_zero
      (by constructor <;> norm_num)
    intro mid s hI
    have hmx : mid.x ≤ 2 := by
      have := hI.1
      have := hI.2
      linarith
    constructor
    · apply Fin.ext
      simp only [branch_index, V3.sub_def]
      rw [if_pos (show (0 : ℚ) ≤ 3 - mid.x by linarith),
        if_pos (show (0 : ℚ) ≤ 2 - mid.x by linarith)]
    · rw [mkChildren_branch_midpoint]
      refine ⟨by linarith [hI.1], ?_⟩
      show mid.x - s / 4 + (if 0 ≤ (⟨3,0,0⟩ : V3).x - mid.x then s / 2 else 0)
          + s / 2 / 2 ≤ 2
      rw [if_pos (show (0 : ℚ) ≤ (⟨3,0,0⟩ : V3).x - mid.x from by
        show (0 : ℚ) ≤ 3 - mid.x
        linarith)]
      have := hI.1
      have := hI.2
      linarith

theorem insert_checked_empty (fuel : ℕ) (M : ℚ) (C mid : V3) (s : ℚ) (id : ℕ)
    (p : V3) (m : ℚ) :
    Node.insert_checked (fuel + 1) (.empty M C mid s) id p m
      = if M + m = 0 then none
        else some (.leaf (M + m) (comUpd C M p m) mid s id) := rfl

theorem insert_checked_leaf (fuel : ℕ) (M : ℚ) (C mid : V3) (s : ℚ) (pid id : ℕ)
    (p : V3) (m : ℚ) :
    Node.insert_checked (fuel + 1) (.leaf M C mid s pid) id p m
      = match Node.insert_checked fuel (mkChildren mid s (branch_index C mid)) pid C M with
        | none => none
        | some c1 =>
          match Node.insert_checked fuel
              (updChild (mkChildren mid s) (branch_index C mid) c1 (branch_index p mid))
              id p m with
          | none => none
          | some c2 =>
            if M + m = 0 then none
            else some (.internal (M + m) (comUpd C M p m) mid s
              (updChild (updChild (mkChildren mid s) (branch_index C mid) c1)
                (branch_index p mid) c2)) := rfl

theorem insert_checked_internal (fuel : ℕ) (M : ℚ) (C mid : V3) (s : ℚ)
    (ch : Fin 8 → Node) (id : ℕ) (p : V3) (m : ℚ) :
    Node.insert_checked (fuel + 1) (.internal M C mid s ch) id p m
      = match Node.insert_checked fuel (ch (branch_index p mid)) id p m with
        | none => none
        | some c1 =>
          if M + m = 0 then none
          else some (.internal (M + m) (comUpd C M p m) mid s
            (updChild ch (branch_index p mid) c1)) := rfl

/--
When every inserted mass is positive (so node masses are non-negative and
resident leaves weigh strictly more than zero), the aggregate-update
divisor `mass + m` is nonzero at every node on the insertion path: the
checked insertion never reports a division by zero and agrees with the
unchecked one.
-/
theorem insert_checked_agrees :
    ∀ (fuel : ℕ) (n : Node) (id : ℕ) (p : V3) (m : ℚ), 0 < m →
      massPosB n = true → (Node.insert fuel n id p m).isSome = true →
      Node.insert_checked fuel n id p m = Node.insert fuel n id p m := by
  intro fuel
  induction fuel with
  | zero => intro n id p m hm hn h; simp [insert_zero] at h
  | succ f ih =>
    intro n id p m hm hn h
    cases n with
    | empty M C mid s =>
        simp only [massPosB, decide_eq_true_eq] at hn
        rw [insert_checked_empty, insert_empty,
          if_neg (show ¬ (M + m = 0) by subst hn; intro hc; linarith)]
    | leaf M C mid s pid =>
        simp only [massPosB, decide_eq_true_eq] at hn
        cases h1 : Node.insert f (mkChildren mid s (branch_index C mid)) pid C M with
        | none =>
            rw [insert_leaf, h1] at h
            simp at h
        | some c1 =>
          have hk1 : Node.insert_checked f (mkChildren mid s (branch_index C mid))
              pid C M = some c1 := by
            rw [ih _ pid C M hn (mkChildren_massPos _ _ _) (by rw [h1]; rfl)]
            exact h1
          cases h2 : Node.insert f
              (updChild (mkChildren mid s) (branch_index C mid) c1 (branch_index p mid))
              id p m with
          | none =>
              rw [insert_leaf, h1] at h
              simp only [h2] at h
              simp at h
          | some c2 =>
            have hchm : massPosB
                (updChild (mkChildren mid s) (branch_index C mid) c1
                  (branch_index p mid)) = true := by
              by_cases hb : branch_index p mid = branch_index C mid
              · rw [hb, updChild_same]
                exact massPos_insert _ _ _ _ _ _ hn (mkChildren_massPos _ _ _) h1
              · rw [updChild_other _ _ _ _ hb]; exact mkChildren_massPos _ _ _
            have hk2 : Node.insert_checked f
                (updChild (mkChildren mid s) (branch_index C mid) c1
                  (branch_index p mid)) id p m = some c2 := by
              rw [ih _ id p m hm hchm (by rw [h2]; rfl)]
              exact h2
            rw [insert_checked_leaf, insert_leaf, h1, hk1]
            simp only [h2, hk2]
            rw [if_neg (show ¬ (M + m = 0) by intro hc; linarith)]
    | internal M C mid s ch =>
        rw [massPosB_internal_iff] at hn
        cases h1 : Node.insert f (ch (branch_index p mid)) id p m with
        | none =>
            rw [insert_internal, h1] at h
            simp at h
        | some c1 =>
          have hk1 : Node.insert_checked f (ch (branch_index p mid)) id p m
              = some c1 := by
            rw [ih _ id p m hm (hn.2 _) (by rw [h1]; rfl)]
            exact h1
          rw [insert_checked_internal, insert_internal, h1, hk1]
          simp only []
          rw [if_neg (show ¬ (M + m = 0) by intro hc; linarith [hn.1])]

/--
Claim C10: every insertion updates `center_of_mass` dividing by the new
accumulated total `mass + m`; with strictly positive inserted masses this
divisor is nonzero at every node on the insertion path (the checked
insertion, which fails exactly on a zero divisor, agrees with the real
one), while inserting a zero-mass body into an empty node makes the
divisor `0 + 0 = 0`: the checked insertion reports the division by zero
that leaves the `f32` `center_of_mass` non-finite, even though the
unchecked insertion succeeds.
-/
theorem claim_c10_zero_divisor :
    (∀ (fuel : ℕ) (n : Node) (id : ℕ) (p : V3) (m : ℚ), 0 < m →
        massPosB n = true → (Node.insert fuel n id p m).isSome = true →
        Node.insert_checked fuel n id p m = Node.insert fuel n id p m)
      ∧ ∀ (mid : V3) (s : ℚ) (id : ℕ) (p : V3),
          Node.insert_checked 1 (Node.new mid s) id p 0 = none
            ∧ (Node.insert 1 (Node.new mid s) id p 0).isSome = true := by
  refine ⟨insert_checked_agrees, ?_⟩
  intro mid s id p
  constructor
  · simp [Node.new, Node.insert_checked]
  · rfl

/-- Witness for C10 at a concrete positive-mass insertion. -/
theorem claim_c10_zero_divisor_witness :
    Node.insert_checked 1 (Node.new ⟨0,0,0⟩ 2) 0 ⟨1,0,0⟩ 1
      = Node.insert 1 (Node.new ⟨0,0,0⟩ 2) 0 ⟨1,0,0⟩ 1 :=
  claim_c10_zero_divisor.1 1 (Node.new ⟨0,0,0⟩ 2) 0 ⟨1,0,0⟩ 1 (by norm_num)
    (massPos_new ⟨0,0,0⟩ 2) rfl
